import Mathlib

/-!
Verification of the SPSA-style finite-difference gradient estimator and its
measurement post-processing pipeline, as a shallow embedding.

The embedding models: tapes (ordered operations with flattened parameter
lists, measurements, trainable-parameter index sets), direction samplers,
the zero-gradient detector, the stencil/tape-variant generator, the result
reassembly function, and the validation layer.  The `coordinate_sampler` is
translated directly from the repository's test module
`tests/returntypes/gradients/test_spsa_gradient_new.py`; the transform core
itself is modelled from the specification (see the doc comments below).
-/

namespace Spsa

/-! ## Result arrays and shapes -/

/-- Shape of a single measurement result: a scalar or a 1-d vector. -/
inductive ArrShape where
  | scal : ArrShape
  | vec : ℕ → ArrShape
deriving DecidableEq, Repr

/-- A single measurement result: a scalar value or a 1-d array of values. -/
inductive Arr (α : Type) where
  | scal : α → Arr α
  | vec : List α → Arr α
deriving DecidableEq, Repr

namespace Arr

/-- The shape of a result array. -/
def shape {α : Type} : Arr α → ArrShape
  | .scal _ => .scal
  | .vec xs => .vec xs.length

/-- Scalar multiplication on a result array. -/
def smul {α : Type} [Mul α] (c : α) : Arr α → Arr α
  | .scal x => .scal (c * x)
  | .vec xs => .vec (xs.map (fun x => c * x))

/-- Elementwise addition; on mismatched shapes the first argument wins. -/
def add {α : Type} [Add α] : Arr α → Arr α → Arr α
  | .scal x, .scal y => .scal (x + y)
  | .vec xs, .vec ys => .vec (List.zipWith (· + ·) xs ys)
  | a, _ => a

/-- The all-zero array of a given shape. -/
def zeroA {α : Type} [Zero α] : ArrShape → Arr α
  | .scal => .scal 0
  | .vec n => .vec (List.replicate n 0)

/-- All entries of the array are zero. -/
def IsZero {α : Type} [Zero α] : Arr α → Prop
  | .scal x => x = 0
  | .vec xs => ∀ x ∈ xs, x = 0

end Arr

/-- Sum of a list of result arrays of shape `s`. -/
def arrSum {α : Type} [Add α] [Zero α] (s : ArrShape) (l : List (Arr α)) : Arr α :=
  l.foldr Arr.add (Arr.zeroA s)

/-- Nested result structure (single array, or a tuple of nested structures),
mirroring the possibly ragged output of a tape execution or a Jacobian. -/
inductive ResTree (α : Type) where
  | arr : Arr α → ResTree α
  | tup : List (ResTree α) → ResTree α

/-- Nested shapes, mirroring `ResTree` nesting. -/
inductive Shape where
  | leaf : ArrShape → Shape
  | tup : List Shape → Shape

/-- The shape of a nested result structure. -/
def ResTree.shape {α : Type} : ResTree α → Shape
  | .arr a => .leaf a.shape
  | .tup ts => .tup (ts.attach.map (fun x => ResTree.shape x.1))
decreasing_by
  simp_wf
  have := List.sizeOf_lt_of_mem x.2
  omega

theorem ResTree.shape_tup {α : Type} (ts : List (ResTree α)) :
    (ResTree.tup ts).shape = Shape.tup (ts.map ResTree.shape) := by
  rw [ResTree.shape.eq_def]
  simp [List.attach_map_coe]

/-! ## Basic array lemmas -/

theorem Arr.shape_smul {α : Type} [Mul α] (c : α) (a : Arr α) :
    (Arr.smul c a).shape = a.shape := by
  cases a <;> simp [Arr.smul, Arr.shape]

theorem Arr.shape_zeroA {α : Type} [Zero α] (s : ArrShape) :
    (Arr.zeroA (α := α) s).shape = s := by
  cases s <;> simp [Arr.zeroA, Arr.shape]

theorem Arr.shape_add {α : Type} [Add α] (a b : Arr α) (h : b.shape = a.shape) :
    (Arr.add a b).shape = a.shape := by
  cases a <;> cases b <;> simp_all [Arr.add, Arr.shape]

theorem arrSum_shape {α : Type} [Add α] [Zero α] (s : ArrShape) (l : List (Arr α))
    (h : ∀ x ∈ l, x.shape = s) : (arrSum s l).shape = s := by
  induction l with
  | nil => simpa [arrSum] using Arr.shape_zeroA (α := α) s
  | cons x xs ih =>
      have hx : x.shape = s := h x (by simp)
      have hxs : (arrSum s xs).shape = s := ih (fun y hy => h y (by simp [hy]))
      have := Arr.shape_add x (arrSum s xs) (by rw [hxs, hx])
      simpa [arrSum, hx] using this

theorem zipWith_add_replicate_zero {α : Type} [AddMonoid α] (xs : List α) :
    List.zipWith (· + ·) xs (List.replicate xs.length (0 : α)) = xs := by
  induction xs with
  | nil => rfl
  | cons x xs ih => simp [List.replicate, ih]

theorem Arr.add_zeroA {α : Type} [AddMonoid α] (a : Arr α) :
    Arr.add a (Arr.zeroA a.shape) = a := by
  cases a with
  | scal x => simp [Arr.add, Arr.zeroA, Arr.shape]
  | vec xs => simp [Arr.add, Arr.zeroA, Arr.shape, zipWith_add_replicate_zero]

theorem zipWith_add_of_left_zero {α : Type} [AddMonoid α] (xs ys : List α)
    (hlen : xs.length = ys.length) (hz : ∀ x ∈ xs, x = 0) :
    List.zipWith (· + ·) xs ys = ys := by
  induction xs generalizing ys with
  | nil => cases ys with
    | nil => rfl
    | cons y ys => simp at hlen
  | cons x xs ih =>
      cases ys with
      | nil => simp at hlen
      | cons y ys =>
          have hx : x = 0 := hz x (by simp)
          simp [hx, ih ys (by simpa using hlen) (fun z hzz => hz z (by simp [hzz]))]

theorem Arr.add_of_isZero_left {α : Type} [AddMonoid α] (a b : Arr α)
    (hz : a.IsZero) (hsh : a.shape = b.shape) : Arr.add a b = b := by
  cases a <;> cases b <;> simp_all [Arr.add, Arr.IsZero, Arr.shape]
  exact zipWith_add_of_left_zero _ _ (by assumption) (by assumption)

theorem Arr.isZero_smul_zero {α : Type} [MulZeroClass α] (a : Arr α) :
    (Arr.smul 0 a).IsZero := by
  cases a with
  | scal x => simp [Arr.smul, Arr.IsZero]
  | vec xs =>
      simp only [Arr.smul, Arr.IsZero, List.mem_map]
      rintro x ⟨y, _, rfl⟩
      simp

theorem Arr.smul_one {α : Type} [Monoid α] (a : Arr α) : Arr.smul 1 a = a := by
  cases a <;> simp [Arr.smul]

theorem Arr.smul_smul {α : Type} [Semigroup α] (c d : α) (a : Arr α) :
    Arr.smul c (Arr.smul d a) = Arr.smul (c * d) a := by
  cases a <;> simp [Arr.smul, mul_assoc]

/-! ## Tapes: operations, measurements, trainable parameters -/

/-- Kind of a terminal measurement. -/
inductive MKind where
  | expval : MKind
  | var : MKind
  | probs : MKind
deriving DecidableEq, Repr

/-- A measurement record: its kind and the wires of its observable. -/
structure Measurement where
  kind : MKind
  wires : List ℕ
deriving DecidableEq, Repr

/-- The result shape of one measurement: expectation values and variances are
scalars, probabilities are vectors of length `2 ^ number of wires`. -/
def Measurement.shape (m : Measurement) : ArrShape :=
  match m.kind with
  | .probs => .vec (2 ^ m.wires.length)
  | _ => .scal

/-- An operation record: gate identifier, continuous parameters, wires. -/
structure Operation (α : Type) where
  name : String
  params : List α
  wires : List ℕ
deriving DecidableEq, Repr

/-- A quantum tape: an ordered list of operations, an ordered list of
measurements, and the trainable-parameter index set (indices into the
flattened parameter list). -/
structure QuantumTape (α : Type) where
  ops : List (Operation α)
  measurements : List Measurement
  trainable_params : List ℕ
deriving DecidableEq, Repr

/-- The flattened parameter list of a tape. -/
def tapeParams {α : Type} (t : QuantumTape α) : List α :=
  (t.ops.map (fun o => o.params)).flatten

/-- Number of flattened parameters of a tape. -/
def numParams {α : Type} (t : QuantumTape α) : ℕ :=
  (tapeParams t).length

/-- Distribute a flat parameter list back over an operation list, giving each
operation as many parameters as it had before. -/
def reassignParams {α : Type} : List (Operation α) → List α → List (Operation α)
  | [], _ => []
  | op :: rest, vs =>
      { op with params := vs.take op.params.length } ::
        reassignParams rest (vs.drop op.params.length)

/-- Copy of a tape with the flattened parameter list replaced. -/
def QuantumTape.withParams {α : Type} (t : QuantumTape α) (vs : List α) :
    QuantumTape α :=
  { t with ops := reassignParams t.ops vs }

/-- The operation that consumes flattened parameter `i`, if any. -/
def opOfFlatParam {α : Type} : List (Operation α) → ℕ → Option (Operation α)
  | [], _ => none
  | op :: rest, i =>
      if i < op.params.length then some op else opOfFlatParam rest (i - op.params.length)

/-- The shape of the `m`-th measurement of a tape. -/
def measShapeAt {α : Type} (t : QuantumTape α) (m : ℕ) : ArrShape :=
  (t.measurements.getD m ⟨.expval, []⟩).shape

/-! ## Zero-gradient detector

Modelled from the spec: a trainable parameter is reported as having zero
gradient only when the static tape graph proves causal disconnection — the
wires of its operation appear in no measurement's wire set and in no
entangling (multi-wire) gate touching a measured wire. -/

/-- Wires appearing in some measurement of the tape. -/
def measuredWires {α : Type} (t : QuantumTape α) : List ℕ :=
  (t.measurements.map (fun m => m.wires)).flatten

/-- Wires of entangling (multi-wire) gates that touch a measured wire. -/
def entangledWires {α : Type} (t : QuantumTape α) : List ℕ :=
  ((t.ops.filter (fun o =>
      decide (2 ≤ o.wires.length) &&
        o.wires.any (fun w => (measuredWires t).contains w))).map (fun o => o.wires)).flatten

/-- Wires that can influence some measurement, per the conservative static
analysis of the zero-gradient detector. -/
def influentialWires {α : Type} (t : QuantumTape α) : List ℕ :=
  measuredWires t ++ entangledWires t

/-- Modelled from the spec: the zero-gradient detector's verdict for the
flattened parameter `i` — `true` unless the detector can prove from the
static tape graph that the outputs cannot depend on parameter `i`. -/
def paramInfluential {α : Type} (t : QuantumTape α) (i : ℕ) : Bool :=
  match opOfFlatParam t.ops i with
  | none => true
  | some op => op.wires.any (fun w => (influentialWires t).contains w)

/-! ## Validation layer data -/

/-- Modelled from the spec: validation error conditions raised synchronously
before any variant tape is generated. -/
inductive GradError where
  | invalidParameterSelection : List ℕ → GradError
  | unsupportedStrategy : String → GradError
deriving DecidableEq, Repr

/-- User-visible message of a validation error, naming the offending
parameter indices or configuration value. -/
def GradError.message : GradError → String
  | .invalidParameterSelection l =>
      "Cannot differentiate with respect to parameter(s) " ++ toString l
  | .unsupportedStrategy s => s

/-- The requested flat parameter indices: `argnum` if supplied, otherwise all
trainable parameters. -/
def argnumFlat {α : Type} (t : QuantumTape α) (argnum : Option (List ℕ)) : List ℕ :=
  argnum.getD t.trainable_params

/-- Requested indices lying outside the tape's trainable-parameter set. -/
def offendingParams {α : Type} (t : QuantumTape α) (argnum : Option (List ℕ)) : List ℕ :=
  (argnumFlat t argnum).filter (fun a => !(t.trainable_params.contains a))

/-- Positions (into the trainable-parameter list) that are requested via
`argnum` and not filtered out by the zero-gradient detector. -/
def chosenPositions {α : Type} (t : QuantumTape α) (argnum : Option (List ℕ)) : List ℕ :=
  (List.range t.trainable_params.length).filter (fun k =>
    (argnumFlat t argnum).contains (t.trainable_params.getD k 0) &&
      paramInfluential t (t.trainable_params.getD k 0))

/-! ## Finite-difference stencils

Modelled from the spec: a stencil is an ordered set of (multiplier,
coefficient) pairs defining a first-derivative finite-difference rule of a
given approximation order and direction.  One-sided rules include the
unshifted point (multiplier `0`, placed first); centered rules do not.
Higher approximation orders use more stencil points per direction.  The
coefficients are the exact first-derivative weights of the interpolating
polynomial through the stencil points. -/

/-- Differentiation strategy of the finite-difference rule. -/
inductive Strategy where
  | forward : Strategy
  | backward : Strategy
  | center : Strategy
deriving DecidableEq, Repr

/-- Multipliers of the stencil points for a strategy and approximation order. -/
def stencilMults : Strategy → ℕ → List ℚ
  | .forward, a => (List.range (a + 1)).map (fun i => (i : ℚ))
  | .backward, a => (List.range (a + 1)).map (fun i => -(i : ℚ))
  | .center, a =>
      ((List.range (a / 2)).map (fun i => ((i + 1 : ℕ) : ℚ))) ++
        ((List.range (a / 2)).map (fun i => -((i + 1 : ℕ) : ℚ)))

/-- First-derivative weight of the `j`-th stencil point: the derivative at `0`
of the `j`-th Lagrange basis polynomial of the stencil points. -/
def derivCoeffAt (pts : List ℚ) (j : ℕ) : ℚ :=
  let xj := pts.getD j 0
  let others := pts.eraseIdx j
  (((List.range others.length).map (fun m =>
      ((others.eraseIdx m).map (fun xk => -xk)).prod)).sum) /
    ((others.map (fun xk => xj - xk)).prod)

/-- The stencil: (multiplier, coefficient) pairs for a strategy and order. -/
def fdStencil (s : Strategy) (a : ℕ) : List (ℚ × ℚ) :=
  let pts := stencilMults s a
  (List.range pts.length).map (fun j => (pts.getD j 0, derivCoeffAt pts j))

/-- Modelled from the spec: stencil construction with validation — fails with
an `UnsupportedStrategy` condition for unrecognized strategy/approximation
order combinations (order `0`, or a centered rule of odd order). -/
def fdStencilE (s : Strategy) (a : ℕ) : Except GradError (List (ℚ × ℚ)) :=
  if a = 0 then .error (.unsupportedStrategy "approx_order must be positive")
  else if s = .center && a % 2 = 1 then
    .error (.unsupportedStrategy "centered strategy requires an even approx_order")
  else .ok (fdStencil s a)

/-- Split a stencil into the coefficient of the unshifted point (if the rule
has one; by construction it is first) and the shifted points. -/
def splitStencil (pts : List (ℚ × ℚ)) : Option ℚ × List (ℚ × ℚ) :=
  match pts with
  | [] => (none, [])
  | (μ, c) :: rest => if μ = 0 then (some c, rest) else (none, pts)

/-! ## Direction samplers -/

/-- The type of a direction sampler: from the chosen index positions, the
number of trainable parameters, the call index and an optional seed, produce
a direction vector over the trainable-parameter space. -/
def Sampler (α : Type) : Type :=
  List ℕ → ℕ → ℕ → Option ℕ → List α

/-- Translated from the source (test module, `coordinate_sampler`): return a
single canonical basis vector, corresponding to the index
`indices[idx % len(indices)]`. -/
def coordinate_sampler {α : Type} [Zero α] [One α] (indices : List ℕ)
    (num_params : ℕ) (idx : ℕ) (seed : Option ℕ) : List α :=
  let idx2 := idx % indices.length
  (List.replicate num_params (0 : α)).set (indices.getD idx2 0) 1

/-- One step of a 64-bit linear congruential generator. -/
def lcgStep (s : ℕ) : ℕ :=
  (6364136223846793005 * s + 1442695040888963407) % 18446744073709551616

/-- Pseudo-random sign bit derived from a seed, a call index and a position. -/
def radBit (seed cidx pos : ℕ) : Bool :=
  (lcgStep (lcgStep (lcgStep seed + cidx) + pos)) % 2 = 1

/-- Modelled from the spec: the Rademacher direction sampler — each entry at a
position listed in `indices` is independently `±1`, entries elsewhere are
zero; the sequence is a pure function of `(seed, call index)`. -/
def _rademacher_sampler {α : Type} [Zero α] [One α] [Neg α] (indices : List ℕ)
    (num_params : ℕ) (idx : ℕ) (seed : Option ℕ) : List α :=
  (List.range num_params).map (fun i =>
    if indices.contains i then (if radBit (seed.getD 0) idx i then (1 : α) else -1)
    else 0)

/-- Generate `m` direction vectors by repeated sampler calls, threading only
an explicit call counter between calls. -/
def sampleSequence {α : Type} (sampler : Sampler α) (indices : List ℕ)
    (num_params : ℕ) (seed : Option ℕ) : ℕ → ℕ → List (List α)
  | _, 0 => []
  | counter, m + 1 =>
      sampler indices num_params counter seed ::
        sampleSequence sampler indices num_params seed (counter + 1) m

/-! ## The SPSA gradient transform

Modelled from the spec: the public entry point resolves trainable parameters
and the `argnum` subset, filters parameters through the zero-gradient
detector, samples `num_directions` perturbation vectors, builds the
stencil-shifted variant tapes (plus one unshifted reference tape when the
rule needs one and `f0` was not supplied), and returns the variant tapes
together with the post-processing function that reassembles raw device
results into the Jacobian, and the list of emitted warnings. -/

/-- Result of a successful transform call: variant tapes, the post-processing
function, and the warnings emitted during the call. -/
structure SpsaOut (α : Type) where
  tapes : List (QuantumTape α)
  post : List (List (Arr α)) → ResTree α
  warnings : List String

/-- Warning emitted for a raw tape with no trainable parameters. -/
def noTrainableTapeWarning : String :=
  "Attempted to compute the gradient of a tape with no trainable parameters."

/-- Warning emitted for a QNode with no trainable parameters. -/
def noTrainableQNodeWarning : String :=
  "Attempted to compute the gradient of a QNode with no trainable parameters."

/-- Jacobian structure returned when the tape has no trainable parameters:
the nesting follows the measurements and every entry is an empty array
(zero differentiated parameters). -/
def emptyParamJac {α : Type} (t : QuantumTape α) : ResTree α :=
  if t.measurements.length = 1 then .arr (.vec [])
  else .tup (t.measurements.map (fun _ => ResTree.arr (.vec [])))

/-- Assemble Jacobian entries into the measurement-major output structure:
a tuple aligned with measurements (collapsed when there is a single
measurement), whose entries are tuples aligned with trainable parameters
(collapsed to a single array when there is a single trainable parameter). -/
def formatJac {α : Type} (t : QuantumTape α) (e : ℕ → ℕ → Arr α) : ResTree α :=
  let nT := t.trainable_params.length
  let per : ℕ → ResTree α := fun m =>
    if nT = 1 then .arr (e m 0)
    else .tup ((List.range nT).map (fun p => ResTree.arr (e m p)))
  if t.measurements.length = 1 then per 0
  else .tup ((List.range t.measurements.length).map per)

/-- The `m`-th entry of one tape's raw result, defaulting to the zero array
of the measurement's shape. -/
def getMeasRes {α : Type} [Zero α] (t : QuantumTape α) (r : List (Arr α))
    (m : ℕ) : Arr α :=
  r.getD m (Arr.zeroA (measShapeAt t m))

/-- The flat-parameter shift vector for one stencil point along a direction:
entry `i` is `δ * direction[k]` when `i` is the `k`-th trainable parameter
and position `k` was chosen, and `0` otherwise. -/
def shiftVector {α : Type} [Mul α] [Zero α] (t : QuantumTape α)
    (chosen : List ℕ) (δ : α) (dir : List α) : List α :=
  (List.range (numParams t)).map (fun i =>
    match t.trainable_params.findIdx? (fun j => j == i) with
    | some k => if chosen.contains k then δ * dir.getD k 0 else 0
    | none => 0)

/-- A variant tape: a fresh copy of the base tape whose flat parameters are
shifted by `δ` along the chosen entries of a direction vector. -/
def shiftedTape {α : Type} [Mul α] [Zero α] [Add α] (t : QuantumTape α)
    (chosen : List ℕ) (δ : α) (dir : List α) : QuantumTape α :=
  t.withParams (List.zipWith (· + ·) (tapeParams t) (shiftVector t chosen δ dir))

/-- The finite-difference estimate for direction `d` and measurement `m`:
the coefficient-weighted sum of the stencil-point results (plus the weighted
unshifted reference result when the rule has an unshifted point), divided by
the step size. -/
def estOf {α : Type} [Field α] (t : QuantumTape α) (h : α)
    (shifted : List (ℚ × ℚ)) (zc : Option ℚ) (r0 : List (Arr α))
    (results : List (List (Arr α))) (off S d m : ℕ) : Arr α :=
  let zeroPart : List (Arr α) :=
    match zc with
    | some c => [Arr.smul ((c : α)) (getMeasRes t r0 m)]
    | none => []
  Arr.smul h⁻¹ (arrSum (measShapeAt t m)
    (zeroPart ++ (List.range S).map (fun j =>
      Arr.smul (((shifted.getD j (0, 0)).2 : α))
        (getMeasRes t (results.getD (off + d * S + j) []) m))))

/-- Sum of the per-direction estimates weighted by the direction's entry at
parameter position `p`, scaled by `1 / num_directions`. -/
def dirCombine {α : Type} [Field α] (t : QuantumTape α) (D : ℕ)
    (dirs : List (List α)) (est : ℕ → ℕ → Arr α) (m p : ℕ) : Arr α :=
  Arr.smul ((D : α))⁻¹ (arrSum (measShapeAt t m)
    ((List.range D).map (fun d => Arr.smul ((dirs.getD d []).getD p 0) (est d m))))

/-- Modelled from the spec: the returned post-processing function.  It
regroups the flat device results per direction (after the shared unshifted
reference result, when present), applies the finite-difference formula,
averages the outer products with the direction vectors over all directions,
and splices exact zeros of the measurement's shape for the trainable
parameters filtered out by the zero-gradient detector. -/
def spsaPostFn {α : Type} [Field α] (t : QuantumTape α) (h : α)
    (pts : List (ℚ × ℚ)) (f0 : Option (List (Arr α))) (D : ℕ)
    (dirs : List (List α)) (chosen : List ℕ) :
    List (List (Arr α)) → ResTree α :=
  fun results =>
    let zc := (splitStencil pts).1
    let shifted := (splitStencil pts).2
    let needRef := zc.isSome && f0.isNone
    let off := if needRef then 1 else 0
    let r0 := if needRef then results.getD 0 [] else f0.getD []
    formatJac t (fun m p =>
      if chosen.contains p then
        dirCombine t D dirs
          (fun d mm => estOf t h shifted zc r0 results off shifted.length d mm) m p
      else Arr.zeroA (measShapeAt t m))

/-- Modelled from the spec: tape-variant generation and post-processing for a
non-empty chosen parameter set. -/
def mainOut {α : Type} [Field α] (t : QuantumTape α) (h : α)
    (pts : List (ℚ × ℚ)) (f0 : Option (List (Arr α))) (nd : Option ℕ)
    (sampler : Sampler α) (seed : Option ℕ) (chosen : List ℕ) : SpsaOut α :=
  let nT := t.trainable_params.length
  let D := nd.getD nT
  let dirs := (List.range D).map (fun i => sampler chosen nT i seed)
  let zc := (splitStencil pts).1
  let shifted := (splitStencil pts).2
  let needRef := zc.isSome && f0.isNone
  { tapes :=
      (if needRef then [t] else []) ++
        (dirs.map (fun dir =>
          shifted.map (fun mc => shiftedTape t chosen ((mc.1 : α) * h) dir))).flatten,
    post := spsaPostFn t h pts f0 D dirs chosen,
    warnings := [] }

/-- Output when every requested parameter was filtered out by the
zero-gradient detector: no variant tapes, and the post-processing function
returns the exact zero Jacobian of the full measurement-shaped structure
without any device execution. -/
def allZeroOut {α : Type} [Field α] (t : QuantumTape α) : SpsaOut α :=
  { tapes := [],
    post := fun _ => formatJac t (fun m _ => Arr.zeroA (measShapeAt t m)),
    warnings := [] }

/-- Output for a tape with no trainable parameters: no variant tapes, a
post-processing function ignoring its input, and one warning. -/
def noTrainableOut {α : Type} (t : QuantumTape α) : SpsaOut α :=
  { tapes := [],
    post := fun _ => emptyParamJac t,
    warnings := [noTrainableTapeWarning] }

/-- Modelled from the spec: the public SPSA gradient transform on a raw tape.
Resolves and validates the trainable parameters, builds the stencil, filters
through the zero-gradient detector, and produces the variant tapes and the
post-processing function (or a validation error, raised before any tape is
generated). -/
def spsa_grad {α : Type} [Field α] (t : QuantumTape α) (argnum : Option (List ℕ))
    (h : α) (approx_order : ℕ) (strategy : Strategy)
    (f0 : Option (List (Arr α))) (num_directions : Option ℕ)
    (sampler : Sampler α) (seed : Option ℕ) (validate_params : Bool) :
    Except GradError (SpsaOut α) :=
  if t.trainable_params = [] then .ok (noTrainableOut t)
  else if validate_params && !(offendingParams t argnum).isEmpty then
    .error (.invalidParameterSelection (offendingParams t argnum))
  else
    match fdStencilE strategy approx_order with
    | .error e => .error e
    | .ok pts =>
        if chosenPositions t argnum = [] then .ok (allZeroOut t)
        else .ok (mainOut t h pts f0 num_directions sampler seed
          (chosenPositions t argnum))

/-! ## Accessors over the transform's result -/

/-- Whether the transform call succeeded. -/
def spsaOk {α : Type} : Except GradError (SpsaOut α) → Bool
  | .ok _ => true
  | .error _ => false

/-- The generated variant tapes (empty on a validation error). -/
def spsaTapes {α : Type} : Except GradError (SpsaOut α) → List (QuantumTape α)
  | .ok o => o.tapes
  | .error _ => []

/-- Apply the returned post-processing function to raw results. -/
def spsaApply {α : Type} : Except GradError (SpsaOut α) →
    List (List (Arr α)) → ResTree α
  | .ok o => fun r => o.post r
  | .error _ => fun _ => .tup []

/-- The warnings emitted by the transform call. -/
def spsaWarnings {α : Type} : Except GradError (SpsaOut α) → List String
  | .ok o => o.warnings
  | .error _ => []

/-- The validation error of a failed transform call. -/
def spsaError {α : Type} : Except GradError (SpsaOut α) → Option GradError
  | .ok _ => none
  | .error e => some e

/-- Project the leaf at measurement `m` and trainable-parameter position `p`
out of a Jacobian structure shaped like `formatJac`. -/
def jacLeaf {α : Type} [Zero α] (t : QuantumTape α) (tree : ResTree α)
    (m p : ℕ) : Arr α :=
  let sub : ResTree α :=
    if t.measurements.length = 1 then tree
    else
      match tree with
      | .tup ts => ts.getD m (.arr (.scal 0))
      | x => x
  if t.trainable_params.length = 1 then
    match sub with
    | .arr a => a
    | _ => .scal 0
  else
    match sub with
    | .tup ps =>
        match ps.getD p (.arr (.scal 0)) with
        | .arr a => a
        | _ => .scal 0
    | _ => .scal 0

/-! ## The QNode path

Modelled from the spec: when the transform is invoked on a differentiable
callable, the callable is traced once into a tape, the tape path is
delegated to, the generated tapes are executed on the device, and the
post-processing function is applied; a QNode whose trainable-parameter set
is empty yields the empty tuple and a QNode-specific warning. -/

/-- A traced differentiable callable: the tape recorded by tracing it once. -/
structure QNode (α : Type) where
  tape : QuantumTape α

/-- Modelled from the spec: the SPSA gradient transform applied to a QNode,
with the device execution performed internally. -/
def spsa_grad_qnode {α : Type} [Field α] (q : QNode α)
    (dev : QuantumTape α → List (Arr α)) (argnum : Option (List ℕ)) (h : α)
    (approx_order : ℕ) (strategy : Strategy) (num_directions : Option ℕ)
    (sampler : Sampler α) (seed : Option ℕ) (validate_params : Bool) :
    ResTree α × List String :=
  if q.tape.trainable_params = [] then (.tup [], [noTrainableQNodeWarning])
  else
    match spsa_grad q.tape argnum h approx_order strategy none num_directions
        sampler seed validate_params with
    | .error _ => (.tup [], [])
    | .ok o => (o.post (o.tapes.map dev), o.warnings)

/-- The all-zero Jacobian-like structure whose leaves have the measurements'
own shapes (collapsed to a single array for a single measurement). -/
def measZeroStruct {α : Type} [Zero α] (t : QuantumTape α) : ResTree α :=
  if t.measurements.length = 1 then .arr (Arr.zeroA (measShapeAt t 0))
  else
    .tup ((List.range t.measurements.length).map (fun m =>
      ResTree.arr (Arr.zeroA (measShapeAt t m))))

/-! ## Branch lemmas for the transform -/

theorem spsa_grad_of_noTrainable {α : Type} [Field α] (t : QuantumTape α)
    (argnum : Option (List ℕ)) (h : α) (approx_order : ℕ) (strategy : Strategy)
    (f0 : Option (List (Arr α))) (num_directions : Option ℕ) (sampler : Sampler α)
    (seed : Option ℕ) (validate_params : Bool)
    (htr : t.trainable_params = []) :
    spsa_grad t argnum h approx_order strategy f0 num_directions sampler seed
      validate_params = .ok (noTrainableOut t) := by
  simp [spsa_grad, htr]

theorem spsa_grad_of_main {α : Type} [Field α] (t : QuantumTape α)
    (argnum : Option (List ℕ)) (h : α) (approx_order : ℕ) (strategy : Strategy)
    (f0 : Option (List (Arr α))) (num_directions : Option ℕ) (sampler : Sampler α)
    (seed : Option ℕ) (validate_params : Bool) (pts : List (ℚ × ℚ))
    (htr : t.trainable_params ≠ [])
    (hv : validate_params = true → offendingParams t argnum = [])
    (hst : fdStencilE strategy approx_order = .ok pts)
    (hch : chosenPositions t argnum ≠ []) :
    spsa_grad t argnum h approx_order strategy f0 num_directions sampler seed
      validate_params =
      .ok (mainOut t h pts f0 num_directions sampler seed
        (chosenPositions t argnum)) := by
  have hvv : (validate_params && !(offendingParams t argnum).isEmpty) = false := by
    cases validate_params with
    | false => simp
    | true => simp [hv rfl]
  simp [spsa_grad, htr, hvv, hst, hch]

theorem spsa_grad_of_allZero {α : Type} [Field α] (t : QuantumTape α)
    (argnum : Option (List ℕ)) (h : α) (approx_order : ℕ) (strategy : Strategy)
    (f0 : Option (List (Arr α))) (num_directions : Option ℕ) (sampler : Sampler α)
    (seed : Option ℕ) (validate_params : Bool) (pts : List (ℚ × ℚ))
    (htr : t.trainable_params ≠ [])
    (hv : validate_params = true → offendingParams t argnum = [])
    (hst : fdStencilE strategy approx_order = .ok pts)
    (hch : chosenPositions t argnum = []) :
    spsa_grad t argnum h approx_order strategy f0 num_directions sampler seed
      validate_params = .ok (allZeroOut t) := by
  have hvv : (validate_params && !(offendingParams t argnum).isEmpty) = false := by
    cases validate_params with
    | false => simp
    | true => simp [hv rfl]
  simp [spsa_grad, htr, hvv, hst, hch]

/-! ## Claim C5 -/

/-- C5 counterexample: for a tape with a single probability measurement on
two wires and an empty trainable-parameter set, the post-processing function
returns per-measurement empty arrays, not an all-zero structure whose leaves
have the measurements' own shapes (here a length-4 zero vector), so the
claim as stated fails on this input. -/
theorem spsa_no_trainable_shape_cex :
    spsaApply
        (spsa_grad (α := ℚ)
          { ops := [⟨"RX", [0], [0]⟩], measurements := [⟨.probs, [0, 1]⟩],
            trainable_params := [] }
          none 1 2 .center none none coordinate_sampler none true) [] =
      ResTree.arr (.vec []) ∧
    ResTree.arr (Arr.vec ([] : List ℚ)) ≠
      measZeroStruct
        { ops := [⟨"RX", [0], [0]⟩], measurements := [⟨.probs, [0, 1]⟩],
          trainable_params := [] } := by
  constructor
  · rfl
  · intro hcontra
    simp [measZeroStruct, measShapeAt, Measurement.shape, Arr.zeroA] at hcontra

/-- C5 (amended): calling the transform on a tape whose trainable-parameter
set is empty returns an empty tape list and a post-processing function `f`
such that `f` applied to anything is the all-zero structure aligned with the
tape's measurements whose per-measurement entries are empty (length-zero)
arrays — reflecting the zero differentiated parameters — with no device call
needed and a warning (not an error) emitted exactly once. -/
theorem spsa_no_trainable_params {α : Type} [Field α] (t : QuantumTape α)
    (argnum : Option (List ℕ)) (h : α) (approx_order : ℕ) (strategy : Strategy)
    (f0 : Option (List (Arr α))) (num_directions : Option ℕ) (sampler : Sampler α)
    (seed : Option ℕ) (validate_params : Bool) (r : List (List (Arr α)))
    (htr : t.trainable_params = []) :
    spsaOk (spsa_grad t argnum h approx_order strategy f0 num_directions sampler
        seed validate_params) = true ∧
    spsaTapes (spsa_grad t argnum h approx_order strategy f0 num_directions sampler
        seed validate_params) = [] ∧
    spsaApply (spsa_grad t argnum h approx_order strategy f0 num_directions sampler
        seed validate_params) r = emptyParamJac t ∧
    spsaWarnings (spsa_grad t argnum h approx_order strategy f0 num_directions
        sampler seed validate_params) = [noTrainableTapeWarning] := by
  rw [spsa_grad_of_noTrainable t argnum h approx_order strategy f0 num_directions
    sampler seed validate_params htr]
  exact ⟨rfl, rfl, rfl, rfl⟩

/-- C5 witness: the amended theorem applied to a concrete two-measurement
tape with no trainable parameters and a junk results list. -/
theorem spsa_no_trainable_params_witness :
    spsaApply
        (spsa_grad (α := ℚ)
          { ops := [⟨"RX", [0], [0]⟩],
            measurements := [⟨.expval, [0]⟩, ⟨.probs, [0, 1]⟩],
            trainable_params := [] }
          none 1 2 .center none none coordinate_sampler none true)
        [[Arr.scal 5]] =
      emptyParamJac (α := ℚ)
        { ops := [⟨"RX", [0], [0]⟩],
          measurements := [⟨.expval, [0]⟩, ⟨.probs, [0, 1]⟩],
          trainable_params := [] } ∧
    spsaWarnings
        (spsa_grad (α := ℚ)
          { ops := [⟨"RX", [0], [0]⟩],
            measurements := [⟨.expval, [0]⟩, ⟨.probs, [0, 1]⟩],
            trainable_params := [] }
          none 1 2 .center none none coordinate_sampler none true) =
      [noTrainableTapeWarning] := by
  have := spsa_no_trainable_params (α := ℚ)
    { ops := [⟨"RX", [0], [0]⟩],
      measurements := [⟨.expval, [0]⟩, ⟨.probs, [0, 1]⟩],
      trainable_params := [] }
    none 1 2 .center none none coordinate_sampler none true [[Arr.scal 5]] rfl
  exact ⟨this.2.2.1, this.2.2.2⟩

/-! ## Claim C6 -/

/-- C6: if `validate_params` is enabled and a requested `argnum` index lies
outside the tape's declared trainable-parameter set, the call fails with an
`InvalidParameterSelection` condition carrying the offending indices (the
rendered message names them), raised synchronously: no variant tape is
generated. -/
theorem spsa_invalid_argnum {α : Type} [Field α] (t : QuantumTape α)
    (argnum : Option (List ℕ)) (h : α) (approx_order : ℕ) (strategy : Strategy)
    (f0 : Option (List (Arr α))) (num_directions : Option ℕ) (sampler : Sampler α)
    (seed : Option ℕ) (a : ℕ)
    (htr : t.trainable_params ≠ [])
    (ha : a ∈ argnumFlat t argnum) (hnot : a ∉ t.trainable_params) :
    spsaError (spsa_grad t argnum h approx_order strategy f0 num_directions
        sampler seed true) =
      some (.invalidParameterSelection (offendingParams t argnum)) ∧
    a ∈ offendingParams t argnum ∧
    spsaTapes (spsa_grad t argnum h approx_order strategy f0 num_directions
        sampler seed true) = [] ∧
    GradError.message (.invalidParameterSelection (offendingParams t argnum)) =
      "Cannot differentiate with respect to parameter(s) " ++
        toString (offendingParams t argnum) := by
  have hmem : a ∈ offendingParams t argnum := by
    simp only [offendingParams, List.mem_filter]
    exact ⟨ha, by simpa using hnot⟩
  have hne : (offendingParams t argnum).isEmpty = false := by
    cases hoff : offendingParams t argnum with
    | nil => rw [hoff] at hmem; simp at hmem
    | cons x xs => simp
  refine ⟨?_, hmem, ?_, rfl⟩
  · simp [spsa_grad, htr, hne, spsaError]
  · simp [spsa_grad, htr, hne, spsaTapes]

/-- C6 witness: a concrete tape with trainable parameter set `{1}` and the
request `argnum = [0, 1]`; index `0` is outside the trainable set, and the
call fails with the `InvalidParameterSelection` condition naming it. -/
theorem spsa_invalid_argnum_witness :
    spsaError
        (spsa_grad (α := ℚ)
          { ops := [⟨"RX", [0], [0]⟩, ⟨"RY", [0], [0]⟩],
            measurements := [⟨.probs, [0, 1]⟩], trainable_params := [1] }
          (some [0, 1]) 1 2 .center none none coordinate_sampler none true) =
      some (.invalidParameterSelection [0]) ∧
    (0 : ℕ) ∈
      offendingParams (α := ℚ)
        { ops := [⟨"RX", [0], [0]⟩, ⟨"RY", [0], [0]⟩],
          measurements := [⟨.probs, [0, 1]⟩], trainable_params := [1] }
        (some [0, 1]) := by
  have := spsa_invalid_argnum (α := ℚ)
    { ops := [⟨"RX", [0], [0]⟩, ⟨"RY", [0], [0]⟩],
      measurements := [⟨.probs, [0, 1]⟩], trainable_params := [1] }
    (some [0, 1]) 1 2 .center none none coordinate_sampler none 0
    (by decide) (by decide) (by decide)
  exact ⟨by rw [this.1]; rfl, this.2.1⟩

/-! ## Claim C10 -/

/-- C10: applying the transform to a QNode whose trainable-parameter set is
empty returns exactly the empty tuple — not a zero-filled structure of the
measurements' shapes — and emits exactly one QNode-specific warning whose
text differs from the raw-tape warning. -/
theorem spsa_qnode_no_trainable {α : Type} [Field α] (q : QNode α)
    (dev : QuantumTape α → List (Arr α)) (argnum : Option (List ℕ)) (h : α)
    (approx_order : ℕ) (strategy : Strategy) (num_directions : Option ℕ)
    (sampler : Sampler α) (seed : Option ℕ) (validate_params : Bool)
    (htr : q.tape.trainable_params = []) (hm : q.tape.measurements ≠ []) :
    spsa_grad_qnode q dev argnum h approx_order strategy num_directions sampler
        seed validate_params = (.tup [], [noTrainableQNodeWarning]) ∧
    (ResTree.tup ([] : List (ResTree α))) ≠ measZeroStruct q.tape ∧
    noTrainableQNodeWarning ≠ noTrainableTapeWarning := by
  refine ⟨by simp [spsa_grad_qnode, htr], ?_, by decide⟩
  unfold measZeroStruct
  by_cases h1 : q.tape.measurements.length = 1
  · simp [h1]
  · simp only [h1, if_false]
    intro hcontra
    injection hcontra with hl
    have h0 : q.tape.measurements.length = 0 := by
      have := List.map_eq_nil_iff.mp hl.symm
      simpa [List.range_eq_nil] using congrArg List.length this
    exact hm (List.length_eq_zero.mp h0)

/-- C10 witness: a concrete QNode over a one-measurement tape with no
trainable parameters yields the empty tuple and the QNode warning. -/
theorem spsa_qnode_no_trainable_witness :
    spsa_grad_qnode (α := ℚ)
        ⟨{ ops := [⟨"RX", [0], [0]⟩, ⟨"RY", [0], [0]⟩],
           measurements := [⟨.expval, [0, 1]⟩], trainable_params := [] }⟩
        (fun _ => [Arr.scal 0]) none 1 2 .center none coordinate_sampler none
        true = (.tup [], [noTrainableQNodeWarning]) := by
  exact (spsa_qnode_no_trainable (α := ℚ)
    ⟨{ ops := [⟨"RX", [0], [0]⟩, ⟨"RY", [0], [0]⟩],
       measurements := [⟨.expval, [0, 1]⟩], trainable_params := [] }⟩
    (fun _ => [Arr.scal 0]) none 1 2 .center none coordinate_sampler none true
    rfl (by decide)).1

/-! ## Claim C3: generated tape counts -/

theorem list_sum_map_const {β : Type} (l : List β) (c : ℕ) :
    (l.map (fun _ => c)).sum = l.length * c := by
  induction l with
  | nil => simp
  | cons x xs ih => simp [ih, Nat.succ_mul, Nat.add_comm]

/-- The number of variant tapes generated on the main path: one reference
tape when the stencil has an unshifted point and no `f0` was supplied, plus
one tape per direction per shifted stencil point. -/
theorem mainOut_tapes_length {α : Type} [Field α] (t : QuantumTape α) (h : α)
    (pts : List (ℚ × ℚ)) (f0 : Option (List (Arr α))) (nd : Option ℕ)
    (sampler : Sampler α) (seed : Option ℕ) (chosen : List ℕ) :
    (mainOut t h pts f0 nd sampler seed chosen).tapes.length =
      (if (splitStencil pts).1.isSome && f0.isNone then 1 else 0) +
        (nd.getD t.trainable_params.length) * (splitStencil pts).2.length := by
  simp only [mainOut, List.length_append, List.length_flatten, List.map_map]
  have hconst : (List.length ∘
      (fun dir => (splitStencil pts).2.map
        (fun mc => shiftedTape t chosen ((mc.1 : α) * h) dir)) ∘
      (fun i => sampler chosen t.trainable_params.length i seed)) =
      (fun _ : ℕ => (splitStencil pts).2.length) := by
    funext i
    simp
  rw [hconst, list_sum_map_const, List.length_range]
  cases hb : ((splitStencil pts).1.isSome && f0.isNone) <;> simp [hb]

/-- C3 counterexample: with a one-sided stencil of approximation order `2`
(a supported strategy/order combination), no supplied `f0`, one trainable
parameter and one direction, the transform generates `3` variant tapes, not
`num_directions + 1 = 2`: the one-sided count in the claim holds only for
order-1 one-sided rules. -/
theorem spsa_tape_count_cex :
    spsaOk
        (spsa_grad (α := ℚ)
          { ops := [⟨"RX", [0], [0]⟩], measurements := [⟨.expval, [0]⟩],
            trainable_params := [0] }
          none 1 2 .forward none (some 1) coordinate_sampler none true) = true ∧
    (spsaTapes
        (spsa_grad (α := ℚ)
          { ops := [⟨"RX", [0], [0]⟩], measurements := [⟨.expval, [0]⟩],
            trainable_params := [0] }
          none 1 2 .forward none (some 1) coordinate_sampler none true)).length =
      3 ∧ (3 : ℕ) ≠ 1 + 1 := by
  exact ⟨rfl, rfl, by decide⟩

/-- C3 (amended): for every tape whose resolved trainable-parameter set is
non-empty, with `num_directions = D` directions: a one-sided strategy
(forward or backward) of approximation order 1 generates `D + 1` variant
tapes when no `f0` is supplied and `D` tapes when `f0` is supplied, and the
centered strategy of approximation order 2 generates `2 * D` tapes; in
general the count is `D * (number of shifted stencil points)` plus one
shared unshifted tape when the rule has an unshifted point and `f0` is
absent. -/
theorem spsa_tape_counts {α : Type} [Field α] (t : QuantumTape α)
    (argnum : Option (List ℕ)) (h : α) (f0val : List (Arr α)) (D : ℕ)
    (sampler : Sampler α) (seed : Option ℕ) (validate_params : Bool)
    (htr : t.trainable_params ≠ [])
    (hv : validate_params = true → offendingParams t argnum = [])
    (hch : chosenPositions t argnum ≠ []) :
    (spsaTapes (spsa_grad t argnum h 1 .forward none (some D) sampler seed
        validate_params)).length = D + 1 ∧
    (spsaTapes (spsa_grad t argnum h 1 .backward none (some D) sampler seed
        validate_params)).length = D + 1 ∧
    (spsaTapes (spsa_grad t argnum h 1 .forward (some f0val) (some D) sampler
        seed validate_params)).length = D ∧
    (spsaTapes (spsa_grad t argnum h 1 .backward (some f0val) (some D) sampler
        seed validate_params)).length = D ∧
    (spsaTapes (spsa_grad t argnum h 2 .center none (some D) sampler seed
        validate_params)).length = 2 * D := by
  refine ⟨?_, ?_, ?_, ?_, ?_⟩
  · rw [spsa_grad_of_main t argnum h 1 .forward none (some D) sampler seed
      validate_params (fdStencil .forward 1) htr hv (by simp [fdStencilE]) hch]
    rw [spsaTapes, mainOut_tapes_length]
    have h1 : (splitStencil (fdStencil .forward 1)).1.isSome = true := by decide
    have h2 : (splitStencil (fdStencil .forward 1)).2.length = 1 := by decide
    rw [h1, h2]
    simp [Nat.add_comm]
  · rw [spsa_grad_of_main t argnum h 1 .backward none (some D) sampler seed
      validate_params (fdStencil .backward 1) htr hv (by simp [fdStencilE]) hch]
    rw [spsaTapes, mainOut_tapes_length]
    have h1 : (splitStencil (fdStencil .backward 1)).1.isSome = true := by decide
    have h2 : (splitStencil (fdStencil .backward 1)).2.length = 1 := by decide
    rw [h1, h2]
    simp [Nat.add_comm]
  · rw [spsa_grad_of_main t argnum h 1 .forward (some f0val) (some D) sampler
      seed validate_params (fdStencil .forward 1) htr hv (by simp [fdStencilE]) hch]
    rw [spsaTapes, mainOut_tapes_length]
    have h2 : (splitStencil (fdStencil .forward 1)).2.length = 1 := by decide
    rw [h2]
    simp
  · rw [spsa_grad_of_main t argnum h 1 .backward (some f0val) (some D) sampler
      seed validate_params (fdStencil .backward 1) htr hv (by simp [fdStencilE]) hch]
    rw [spsaTapes, mainOut_tapes_length]
    have h2 : (splitStencil (fdStencil .backward 1)).2.length = 1 := by decide
    rw [h2]
    simp
  · rw [spsa_grad_of_main t argnum h 2 .center none (some D) sampler seed
      validate_params (fdStencil .center 2) htr hv (by simp [fdStencilE]) hch]
    rw [spsaTapes, mainOut_tapes_length]
    have h1 : (splitStencil (fdStencil .center 2)).1.isSome = false := by decide
    have h2 : (splitStencil (fdStencil .center 2)).2.length = 2 := by decide
    rw [h1, h2]
    simp [Nat.mul_comm]

/-- C3 witness: the amended tape counts evaluated on a concrete tape with one
trainable, influential parameter and `D = 3` directions. -/
theorem spsa_tape_counts_witness :
    (spsaTapes (spsa_grad (α := ℚ)
        { ops := [⟨"RX", [0], [0]⟩], measurements := [⟨.expval, [0]⟩],
          trainable_params := [0] }
        none 1 1 .forward none (some 3) coordinate_sampler none true)).length =
      3 + 1 ∧
    (spsaTapes (spsa_grad (α := ℚ)
        { ops := [⟨"RX", [0], [0]⟩], measurements := [⟨.expval, [0]⟩],
          trainable_params := [0] }
        none 1 2 .center none (some 3) coordinate_sampler none true)).length =
      2 * 3 := by
  have := spsa_tape_counts (α := ℚ)
    { ops := [⟨"RX", [0], [0]⟩], measurements := [⟨.expval, [0]⟩],
      trainable_params := [0] }
    none 1 [Arr.scal 0] 3 coordinate_sampler none true
    (by decide) (fun _ => by decide) (by decide)
  exact ⟨this.1, this.2.2.2.2⟩

/-! ## Claims C7 and C8: direction samplers -/

theorem getD_set_of_lt {α : Type} (l : List α) (i : ℕ) (a d : α)
    (h : i < l.length) : (l.set i a).getD i d = a := by
  simp [List.getD_eq_getElem?_getD, List.getElem?_set, h]

theorem getD_set_of_ne {α : Type} (l : List α) (i j : ℕ) (a d : α)
    (h : j ≠ i) : (l.set i a).getD j d = l.getD j d := by
  simp [List.getD_eq_getElem?_getD, List.getElem?_set, Ne.symm h]

theorem getD_replicate_of_lt {α : Type} (n j : ℕ) (x d : α) (h : j < n) :
    (List.replicate n x).getD j d = x := by
  simp [List.getD_eq_getElem?_getD, List.getElem?_replicate, h]

/-- C7: the coordinate sampler returns, for every input, the canonical basis
vector selected by `call_index mod len(indices)`: a vector of length
`num_params` whose entry at position `indices[idx % len(indices)]` is `1`
and whose entries at all other positions listed in `indices` are `0`. -/
theorem coordinate_sampler_spec {α : Type} [Zero α] [One α] (indices : List ℕ)
    (num_params idx : ℕ) (seed : Option ℕ)
    (hne : indices ≠ [])
    (htarget : indices.getD (idx % indices.length) 0 < num_params) :
    (coordinate_sampler (α := α) indices num_params idx seed).length =
      num_params ∧
    (coordinate_sampler (α := α) indices num_params idx seed).getD
        (indices.getD (idx % indices.length) 0) 0 = 1 ∧
    ∀ j ∈ indices, j < num_params →
      j ≠ indices.getD (idx % indices.length) 0 →
      (coordinate_sampler (α := α) indices num_params idx seed).getD j 0 = 0 := by
  refine ⟨?_, ?_, ?_⟩
  · simp [coordinate_sampler]
  · rw [coordinate_sampler, getD_set_of_lt]
    simpa using htarget
  · intro j _ hj hne2
    rw [coordinate_sampler, getD_set_of_ne _ _ _ _ _ hne2,
      getD_replicate_of_lt _ _ _ _ hj]

/-- C7 witness: `indices = [1, 2]`, `num_params = 4`, `call_index = 5` select
the basis vector at position `indices[5 % 2] = 2`. -/
theorem coordinate_sampler_spec_witness :
    (coordinate_sampler (α := ℚ) [1, 2] 4 5 none).length = 4 ∧
    (coordinate_sampler (α := ℚ) [1, 2] 4 5 none).getD 2 0 = 1 ∧
    (coordinate_sampler (α := ℚ) [1, 2] 4 5 none).getD 1 0 = 0 := by
  have := coordinate_sampler_spec (α := ℚ) [1, 2] 4 5 none (by decide) (by decide)
  exact ⟨this.1, this.2.1, this.2.2 1 (by decide) (by decide) (by decide)⟩

/-- C8: a conforming direction sampler is pure in its explicit arguments: the
`k`-th vector of a sampling run that threads only the caller-supplied call
counter equals the sampler applied to call index `counter + k`, for every
sampler; and each entry of the Rademacher sampler's output is the `±1`/`0`
value determined by `(seed, call_index, position)` alone — `±1` at positions
listed in `indices`, `0` elsewhere — so its sequence is reproducible given
`(seed, call_index)`. -/
theorem sampler_purity {α : Type} [Zero α] [One α] [Neg α] (indices : List ℕ)
    (num_params : ℕ) (seed c m k i : ℕ) (hk : k < m) (hi : i < num_params) :
    (∀ sampler : Sampler α,
      (sampleSequence sampler indices num_params (some seed) c m).getD k [] =
        sampler indices num_params (c + k) (some seed)) ∧
    (_rademacher_sampler (α := α) indices num_params (c + k)
        (some seed)).getD i 0 =
      (if indices.contains i then
        (if radBit seed (c + k) i then (1 : α) else -1) else 0) := by
  constructor
  · intro sampler
    induction m generalizing c k with
    | zero => omega
    | succ m ih =>
        cases k with
        | zero => simp [sampleSequence]
        | succ k =>
            have := ih (c + 1) k (by omega)
            rw [sampleSequence]
            simpa [Nat.add_comm, Nat.add_assoc, Nat.add_left_comm] using this
  · rw [_rademacher_sampler, List.getD_eq_getElem?_getD, List.getElem?_map,
      List.getElem?_range hi]
    simp

/-- C8 witness: a concrete run of three Rademacher calls starting at counter
`4`: the second vector equals the pure function of call index `5`, and its
entry at position `1` is the sign determined by `(seed, 5, 1)`. -/
theorem sampler_purity_witness :
    (sampleSequence (_rademacher_sampler (α := ℚ)) [0, 1] 2 (some 7) 4 3).getD
        1 [] = _rademacher_sampler (α := ℚ) [0, 1] 2 (4 + 1) (some 7) ∧
    (_rademacher_sampler (α := ℚ) [0, 1] 2 (4 + 1) (some 7)).getD 1 0 =
      (if ([0, 1] : List ℕ).contains 1 then
        (if radBit 7 (4 + 1) 1 then (1 : ℚ) else -1) else 0) := by
  have := sampler_purity (α := ℚ) [0, 1] 2 7 4 3 1 1 (by decide) (by decide)
  exact ⟨this.1 (_rademacher_sampler (α := ℚ)), this.2⟩

/-! ## Claim C9: the transform never alters tape structure -/

/-- The non-parameter content of an operation: gate identifier, wires, and
the number of parameters it consumes. -/
def opSkeleton {α : Type} (o : Operation α) : String × List ℕ × ℕ :=
  (o.name, o.wires, o.params.length)

theorem reassignParams_skeleton {α : Type} (ops : List (Operation α))
    (vs : List α) (h : (ops.map (fun o => o.params.length)).sum ≤ vs.length) :
    (reassignParams ops vs).map opSkeleton = ops.map opSkeleton := by
  induction ops generalizing vs with
  | nil => rfl
  | cons op rest ih =>
      simp only [List.map_cons, List.sum_cons] at h
      have hlen : op.params.length ≤ vs.length := by omega
      simp only [reassignParams, List.map_cons]
      rw [ih (vs.drop op.params.length) (by simp; omega)]
      have : opSkeleton { op with params := vs.take op.params.length } =
          opSkeleton op := by
        simp [opSkeleton, Nat.min_eq_left hlen]
      rw [this]

theorem reassignParams_flatten {α : Type} (ops : List (Operation α))
    (vs : List α) (h : vs.length = (ops.map (fun o => o.params.length)).sum) :
    ((reassignParams ops vs).map (fun o => o.params)).flatten = vs := by
  induction ops generalizing vs with
  | nil =>
      simp only [List.map_nil, List.sum_nil] at h
      simp [reassignParams, List.length_eq_zero.mp h]
  | cons op rest ih =>
      simp only [List.map_cons, List.sum_cons] at h
      simp only [reassignParams, List.map_cons, List.flatten_cons]
      rw [ih (vs.drop op.params.length) (by simp [h])]
      exact List.take_append_drop _ vs

theorem numParams_eq_sum {α : Type} (t : QuantumTape α) :
    numParams t = (t.ops.map (fun o => o.params.length)).sum := by
  simp [numParams, tapeParams, List.length_flatten, List.map_map]
  rfl

theorem shiftVector_length {α : Type} [Mul α] [Zero α] (t : QuantumTape α)
    (chosen : List ℕ) (δ : α) (dir : List α) :
    (shiftVector t chosen δ dir).length = numParams t := by
  simp [shiftVector]

theorem shiftedTape_structure {α : Type} [Field α] (t : QuantumTape α)
    (chosen : List ℕ) (δ : α) (dir : List α) :
    (shiftedTape t chosen δ dir).measurements = t.measurements ∧
    (shiftedTape t chosen δ dir).trainable_params = t.trainable_params ∧
    (shiftedTape t chosen δ dir).ops.map opSkeleton = t.ops.map opSkeleton ∧
    tapeParams (shiftedTape t chosen δ dir) =
      List.zipWith (· + ·) (tapeParams t) (shiftVector t chosen δ dir) := by
  have hlen : (List.zipWith (· + ·) (tapeParams t)
      (shiftVector t chosen δ dir)).length = numParams t := by
    simp [List.length_zipWith, shiftVector_length, numParams]
  refine ⟨rfl, rfl, ?_, ?_⟩
  · exact reassignParams_skeleton t.ops _ (by rw [hlen, numParams_eq_sum])
  · exact reassignParams_flatten t.ops _ (by rw [hlen, numParams_eq_sum])

/-- C9: the transform is a pure function of the input tape; every generated
variant tape is a fresh copy agreeing with the original tape on the
measurement list, the trainable-parameter index set, and every operation's
identifier, wires and parameter count, and differing from it only by
substituted parameter values (its flat parameters are the original
parameters plus a shift vector); the original tape itself is never altered. -/
theorem spsa_tape_frame {α : Type} [Field α] (t : QuantumTape α)
    (argnum : Option (List ℕ)) (h : α) (approx_order : ℕ) (strategy : Strategy)
    (f0 : Option (List (Arr α))) (num_directions : Option ℕ) (sampler : Sampler α)
    (seed : Option ℕ) (validate_params : Bool) :
    ∀ tp ∈ spsaTapes (spsa_grad t argnum h approx_order strategy f0
        num_directions sampler seed validate_params),
      tp.measurements = t.measurements ∧
      tp.trainable_params = t.trainable_params ∧
      tp.ops.map opSkeleton = t.ops.map opSkeleton ∧
      ∃ δs : List α, δs.length = numParams t ∧
        tapeParams tp = List.zipWith (· + ·) (tapeParams t) δs := by
  intro tp htp
  have hmain : tp = t ∨ ∃ chosen δ dir, tp = shiftedTape t chosen δ dir := by
    unfold spsa_grad at htp
    split at htp
    · simp [spsaTapes, noTrainableOut] at htp
    · split at htp
      · simp [spsaTapes] at htp
      · split at htp
        · simp [spsaTapes] at htp
        · split at htp
          · simp [spsaTapes, allZeroOut] at htp
          · simp only [spsaTapes, mainOut, List.mem_append] at htp
            rcases htp with htp | htp
            · left
              cases hb : ((splitStencil _).1.isSome && f0.isNone) <;>
                rw [hb] at htp <;> simp at htp
              exact htp
            · right
              rw [List.mem_flatten] at htp
              obtain ⟨l, hl, hmem⟩ := htp
              rw [List.mem_map] at hl
              obtain ⟨dir, _, rfl⟩ := hl
              rw [List.mem_map] at hmem
              obtain ⟨mc, _, rfl⟩ := hmem
              exact ⟨_, _, _, rfl⟩
  rcases hmain with rfl | ⟨chosen, δ, dir, rfl⟩
  · refine ⟨rfl, rfl, rfl, List.replicate (numParams tp) 0, by simp, ?_⟩
    rw [show List.replicate (numParams tp) (0 : α) =
      List.replicate (tapeParams tp).length (0 : α) from rfl]
    rw [zipWith_add_replicate_zero]
  · obtain ⟨h1, h2, h3, h4⟩ := shiftedTape_structure t chosen δ dir
    exact ⟨h1, h2, h3, shiftVector t chosen δ dir, shiftVector_length t chosen δ dir, h4⟩

/-- C9 witness: a concrete transform call with zero directions generates
exactly the unshifted reference tape, whose structure agrees with the
original tape and whose parameters are the original parameters plus a zero
shift. -/
theorem spsa_tape_frame_witness :
    (spsaTapes (spsa_grad (α := ℚ)
        { ops := [⟨"RX", [5], [0]⟩], measurements := [⟨.expval, [0]⟩],
          trainable_params := [0] }
        none 1 1 .forward none (some 0) coordinate_sampler none true)).length = 1 ∧
    ({ ops := [⟨"RX", [5], [0]⟩], measurements := [⟨.expval, [0]⟩],
        trainable_params := [0] } : QuantumTape ℚ).measurements =
      [⟨.expval, [0]⟩] ∧
    ∃ δs : List ℚ, δs.length = 1 ∧
      tapeParams ({ ops := [⟨"RX", [5], [0]⟩],
                    measurements := [⟨.expval, [0]⟩],
                    trainable_params := [0] } : QuantumTape ℚ) =
        List.zipWith (· + ·) [(5 : ℚ)] δs := by
  have := spsa_tape_frame (α := ℚ)
    { ops := [⟨"RX", [5], [0]⟩], measurements := [⟨.expval, [0]⟩],
      trainable_params := [0] }
    none 1 1 .forward none (some 0) coordinate_sampler none true
    { ops := [⟨"RX", [5], [0]⟩], measurements := [⟨.expval, [0]⟩],
      trainable_params := [0] }
    (by exact List.mem_singleton.mpr rfl)
  exact ⟨rfl, this.1, this.2.2.2⟩

/-! ## Indexing helper lemmas -/

theorem getD_map_range {β : Type} (f : ℕ → β) (n i : ℕ) (d : β) (h : i < n) :
    ((List.range n).map f).getD i d = f i := by
  rw [List.getD_eq_getElem?_getD, List.getElem?_map, List.getElem?_range h]
  rfl

theorem getD_zipWith_add {α : Type} [Add α] (l1 l2 : List α) (i : ℕ) (d : α)
    (h1 : i < l1.length) (h2 : i < l2.length) :
    (List.zipWith (· + ·) l1 l2).getD i d = l1.getD i d + l2.getD i d := by
  have hlen : i < (List.zipWith (· + ·) l1 l2).length := by
    simp [List.length_zipWith]
    omega
  rw [List.getD_eq_getElem (_) d hlen, List.getElem_zipWith,
    List.getD_eq_getElem _ d h1, List.getD_eq_getElem _ d h2]

theorem findIdx?_nodup_getD_aux {l : List ℕ} (hnd : l.Nodup) (k : ℕ)
    (hk : k < l.length) (i : ℕ) :
    List.findIdx? (fun j => j == l.getD k 0) l i = some (i + k) := by
  induction l generalizing k i with
  | nil => simp at hk
  | cons x xs ih =>
      cases k with
      | zero => simp [List.findIdx?_cons]
      | succ k =>
          have hk' : k < xs.length := by simpa using hk
          have hmem : xs.getD k 0 ∈ xs := by
            rw [List.getD_eq_getElem _ _ hk']
            exact List.getElem_mem hk'
          have hx : (x == xs.getD k 0) = false := by
            simp only [beq_eq_false_iff_ne, ne_eq]
            intro hcontra
            exact (List.nodup_cons.mp hnd).1 (hcontra ▸ hmem)
          have hgd : (x :: xs).getD (k + 1) 0 = xs.getD k 0 := rfl
          rw [hgd, List.findIdx?_cons, hx]
          simp only [Bool.false_eq_true, if_false]
          rw [ih (List.nodup_cons.mp hnd).2 k hk' (i + 1)]
          congr 1
          omega

theorem findIdx?_nodup_getD {l : List ℕ} (hnd : l.Nodup) (k : ℕ)
    (hk : k < l.length) :
    l.findIdx? (fun j => j == l.getD k 0) = some k := by
  simpa using findIdx?_nodup_getD_aux hnd k hk 0

/-- Extracting the `(m, p)` leaf back out of a `formatJac` structure. -/
theorem jacLeaf_formatJac {α : Type} [Zero α] (t : QuantumTape α)
    (e : ℕ → ℕ → Arr α) (m p : ℕ) (hm : m < t.measurements.length)
    (hp : p < t.trainable_params.length) :
    jacLeaf t (formatJac t e) m p = e m p := by
  by_cases hL : t.measurements.length = 1
  · have hm0 : m = 0 := by omega
    subst hm0
    by_cases hT : t.trainable_params.length = 1
    · have hp0 : p = 0 := by omega
      subst hp0
      simp [jacLeaf, formatJac, hL, hT]
    · simp only [jacLeaf, formatJac, hL, hT, if_true, if_false]
      rw [getD_map_range _ _ _ _ hp]
  · by_cases hT : t.trainable_params.length = 1
    · have hp0 : p = 0 := by omega
      subst hp0
      simp only [jacLeaf, formatJac, hL, hT, if_true, if_false]
      rw [getD_map_range _ _ _ _ hm]
    · simp only [jacLeaf, formatJac, hL, hT, if_true, if_false]
      rw [getD_map_range _ _ _ _ hm]
      simp only
      rw [getD_map_range _ _ _ _ hp]

/-- Case analysis of a transform call: no-trainable-parameters path,
validation/stencil error, all-parameters-filtered path, or the main path. -/
theorem spsa_grad_cases {α : Type} [Field α] (t : QuantumTape α)
    (argnum : Option (List ℕ)) (h : α) (approx_order : ℕ) (strategy : Strategy)
    (f0 : Option (List (Arr α))) (num_directions : Option ℕ) (sampler : Sampler α)
    (seed : Option ℕ) (validate_params : Bool) :
    (t.trainable_params = [] ∧
      spsa_grad t argnum h approx_order strategy f0 num_directions sampler seed
        validate_params = .ok (noTrainableOut t)) ∨
    (∃ e, spsa_grad t argnum h approx_order strategy f0 num_directions sampler
        seed validate_params = .error e) ∨
    (chosenPositions t argnum = [] ∧
      spsa_grad t argnum h approx_order strategy f0 num_directions sampler seed
        validate_params = .ok (allZeroOut t)) ∨
    (∃ pts, fdStencilE strategy approx_order = .ok pts ∧
      chosenPositions t argnum ≠ [] ∧
      spsa_grad t argnum h approx_order strategy f0 num_directions sampler seed
        validate_params =
        .ok (mainOut t h pts f0 num_directions sampler seed
          (chosenPositions t argnum))) := by
  unfold spsa_grad
  by_cases h1 : t.trainable_params = []
  · exact Or.inl ⟨h1, by simp [h1]⟩
  · simp only [h1, if_false]
    by_cases h2 : (validate_params && !(offendingParams t argnum).isEmpty) = true
    · exact Or.inr (Or.inl
        ⟨.invalidParameterSelection (offendingParams t argnum), by simp [h2]⟩)
    · rw [Bool.not_eq_true] at h2
      simp only [h2]
      cases h3 : fdStencilE strategy approx_order with
      | error e => exact Or.inr (Or.inl ⟨e, by simp⟩)
      | ok pts =>
          by_cases h4 : chosenPositions t argnum = []
          · exact Or.inr (Or.inr (Or.inl ⟨h4, by simp [h4]⟩))
          · exact Or.inr (Or.inr (Or.inr ⟨pts, rfl, h4, by simp [h4]⟩))

/-! ## Claim C4: non-influential parameters -/

theorem not_mem_chosen_of_not_influential {α : Type} (t : QuantumTape α)
    (argnum : Option (List ℕ)) (k : ℕ)
    (hdet : paramInfluential t (t.trainable_params.getD k 0) = false) :
    k ∉ chosenPositions t argnum := by
  intro hmem
  have := (List.mem_filter.mp hmem).2
  simp only [Bool.and_eq_true] at this
  rw [hdet] at this
  exact Bool.false_ne_true this.2

theorem shiftVector_getD_not_chosen {α : Type} [Mul α] [Zero α]
    (t : QuantumTape α) (chosen : List ℕ) (δ : α) (dir : List α) (k : ℕ)
    (hnd : t.trainable_params.Nodup) (hk : k < t.trainable_params.length)
    (hflt : t.trainable_params.getD k 0 < numParams t)
    (hnc : chosen.contains k = false) :
    (shiftVector t chosen δ dir).getD (t.trainable_params.getD k 0) 0 = 0 := by
  rw [shiftVector, getD_map_range _ _ _ _ hflt, findIdx?_nodup_getD hnd k hk]
  show (if chosen.contains k = true then δ * dir.getD k 0 else 0) = 0
  rw [hnc]
  simp

/-- C4: if the zero-gradient detector proves trainable parameter `k`
non-influential (its gate touches no measured wire and no entangling gate
connects it to one), then (i) no generated variant tape perturbs that
parameter — its flat value is identical in every generated tape, so no
device execution happens on its behalf — (ii) the returned Jacobian's slice
for it is exactly the zero array of each measurement's shape, and (iii) when
every trainable parameter is non-influential, the generated tape list is
empty. -/
theorem spsa_noninfluential_zero {α : Type} [Field α] (t : QuantumTape α)
    (argnum : Option (List ℕ)) (h : α) (approx_order : ℕ) (strategy : Strategy)
    (f0 : Option (List (Arr α))) (num_directions : Option ℕ) (sampler : Sampler α)
    (seed : Option ℕ) (validate_params : Bool) (results : List (List (Arr α)))
    (k : ℕ)
    (hnd : t.trainable_params.Nodup)
    (hk : k < t.trainable_params.length)
    (hflt : t.trainable_params.getD k 0 < numParams t)
    (hdet : paramInfluential t (t.trainable_params.getD k 0) = false)
    (hok : spsaOk (spsa_grad t argnum h approx_order strategy f0 num_directions
        sampler seed validate_params) = true) :
    (∀ tp ∈ spsaTapes (spsa_grad t argnum h approx_order strategy f0
        num_directions sampler seed validate_params),
      (tapeParams tp).getD (t.trainable_params.getD k 0) 0 =
        (tapeParams t).getD (t.trainable_params.getD k 0) 0) ∧
    (∀ m < t.measurements.length,
      jacLeaf t (spsaApply (spsa_grad t argnum h approx_order strategy f0
          num_directions sampler seed validate_params) results) m k =
        Arr.zeroA (measShapeAt t m)) ∧
    ((∀ j < t.trainable_params.length,
        paramInfluential t (t.trainable_params.getD j 0) = false) →
      spsaTapes (spsa_grad t argnum h approx_order strategy f0 num_directions
        sampler seed validate_params) = []) := by
  have hnc : (chosenPositions t argnum).contains k = false := by
    have := not_mem_chosen_of_not_influential t argnum k hdet
    simp [List.elem_iff]
    exact this
  have hchEmpty : (∀ j < t.trainable_params.length,
      paramInfluential t (t.trainable_params.getD j 0) = false) →
      chosenPositions t argnum = [] := by
    intro hall
    rw [chosenPositions, List.filter_eq_nil_iff]
    intro j hj
    rw [List.mem_range] at hj
    simp only [Bool.and_eq_true, not_and]
    intro _
    rw [hall j hj]
    exact Bool.false_ne_true
  rcases spsa_grad_cases t argnum h approx_order strategy f0 num_directions
      sampler seed validate_params with
    ⟨htr, hrun⟩ | ⟨e, hrun⟩ | ⟨hch, hrun⟩ | ⟨pts, hst, hch, hrun⟩
  · rw [htr] at hk
    simp at hk
  · rw [hrun] at hok
    simp [spsaOk] at hok
  · rw [hrun]
    refine ⟨?_, ?_, ?_⟩
    · intro tp htp
      simp [spsaTapes, allZeroOut] at htp
    · intro m hm
      rw [spsaApply, allZeroOut]
      exact jacLeaf_formatJac t _ m k hm hk
    · intro _
      rfl
  · rw [hrun]
    refine ⟨?_, ?_, ?_⟩
    · intro tp htp
      simp only [spsaTapes, mainOut, List.mem_append] at htp
      rcases htp with htp | htp
      · have : tp = t := by
          cases hb : ((splitStencil pts).1.isSome && f0.isNone) <;>
            rw [hb] at htp <;> simp at htp
          exact htp
        rw [this]
      · rw [List.mem_flatten] at htp
        obtain ⟨l, hl, hmem⟩ := htp
        rw [List.mem_map] at hl
        obtain ⟨dir, _, rfl⟩ := hl
        rw [List.mem_map] at hmem
        obtain ⟨mc, _, rfl⟩ := hmem
        obtain ⟨_, _, _, h4⟩ := shiftedTape_structure t
          (chosenPositions t argnum) ((mc.1 : α) * h) dir
        rw [h4, getD_zipWith_add _ _ _ _ hflt
          (by rw [shiftVector_length]; exact hflt)]
        rw [shiftVector_getD_not_chosen t _ _ _ k hnd hk hflt hnc, add_zero]
    · intro m hm
      rw [spsaApply, mainOut]
      simp only [spsaPostFn]
      rw [jacLeaf_formatJac t _ m k hm hk, hnc]
      simp
    · intro hall
      exact absurd (hchEmpty hall) hch

/-- C4 witness: the tape `RX(p0, wire 0); RX(p1, wire 1); expval(PauliZ(0))`
with both parameters trainable — parameter 1 feeds only unmeasured wire 1,
its flat value is unperturbed in every generated tape and its Jacobian slice
is the zero scalar. -/
theorem spsa_noninfluential_zero_witness :
    ((spsaTapes (spsa_grad (α := ℚ)
        { ops := [⟨"RX", [5], [0]⟩, ⟨"RX", [7], [1]⟩],
          measurements := [⟨.expval, [0]⟩], trainable_params := [0, 1] }
        none 1 2 .center none (some 2) coordinate_sampler none true)).map
      (fun tp => (tapeParams tp).getD 1 0)).all (fun v => v == 7) = true ∧
    jacLeaf (α := ℚ)
        { ops := [⟨"RX", [5], [0]⟩, ⟨"RX", [7], [1]⟩],
          measurements := [⟨.expval, [0]⟩], trainable_params := [0, 1] }
        (spsaApply (spsa_grad (α := ℚ)
          { ops := [⟨"RX", [5], [0]⟩, ⟨"RX", [7], [1]⟩],
            measurements := [⟨.expval, [0]⟩], trainable_params := [0, 1] }
          none 1 2 .center none (some 2) coordinate_sampler none true)
          [[Arr.scal 3], [Arr.scal 4], [Arr.scal 3], [Arr.scal 4]]) 0 1 =
      Arr.zeroA ArrShape.scal := by
  have := spsa_noninfluential_zero (α := ℚ)
    { ops := [⟨"RX", [5], [0]⟩, ⟨"RX", [7], [1]⟩],
      measurements := [⟨.expval, [0]⟩], trainable_params := [0, 1] }
    none 1 2 .center none (some 2) coordinate_sampler none true
    [[Arr.scal 3], [Arr.scal 4], [Arr.scal 3], [Arr.scal 4]] 1
    (by decide) (by decide) (by decide) (by decide) (by decide)
  constructor
  · rw [List.all_eq_true]
    intro v hv
    rw [List.mem_map] at hv
    obtain ⟨tp, htp, rfl⟩ := hv
    have h1 : (tapeParams tp).getD 1 0 = (7 : ℚ) := this.1 tp htp
    rw [h1]
    rfl
  · exact this.2.1 0 (by decide)

/-! ## Claim C1: the shape invariant -/

/-- A raw tape result is well-shaped for tape `t`: its `m`-th entry has the
`m`-th measurement's shape (this is the Result Structure invariant: the
nesting and shapes are determined solely by the measurement records). -/
def WellShapedRes {α : Type} [Zero α] (t : QuantumTape α)
    (r : List (Arr α)) : Prop :=
  ∀ m < t.measurements.length, (getMeasRes t r m).shape = measShapeAt t m

theorem wellShapedRes_nil {α : Type} [Zero α] (t : QuantumTape α) :
    WellShapedRes t ([] : List (Arr α)) := by
  intro m _
  simp [getMeasRes, Arr.shape_zeroA]

theorem wellShapedRes_getD {α : Type} [Zero α] (t : QuantumTape α)
    (results : List (List (Arr α)))
    (hres : ∀ r ∈ results, WellShapedRes t r) (i : ℕ) :
    WellShapedRes t (results.getD i []) := by
  rw [List.getD_eq_getElem?_getD]
  cases hg : results[i]? with
  | none => exact wellShapedRes_nil t
  | some r =>
      have hmem : r ∈ results := by
        have := List.getElem?_eq_some_iff.mp hg
        obtain ⟨hlt, hval⟩ := this
        exact hval ▸ List.getElem_mem hlt
      simpa using hres r hmem

theorem estOf_shape {α : Type} [Field α] (t : QuantumTape α) (h : α)
    (shifted : List (ℚ × ℚ)) (zc : Option ℚ) (r0 : List (Arr α))
    (results : List (List (Arr α))) (off S d m : ℕ)
    (hr0 : WellShapedRes t r0)
    (hres : ∀ r ∈ results, WellShapedRes t r)
    (hm : m < t.measurements.length) :
    (estOf t h shifted zc r0 results off S d m).shape = measShapeAt t m := by
  unfold estOf
  rw [Arr.shape_smul]
  apply arrSum_shape
  intro x hx
  rw [List.mem_append] at hx
  rcases hx with hx | hx
  · cases zc with
    | none => simp at hx
    | some c =>
        simp only [List.mem_singleton] at hx
        rw [hx, Arr.shape_smul]
        exact hr0 m hm
  · rw [List.mem_map] at hx
    obtain ⟨j, _, rfl⟩ := hx
    rw [Arr.shape_smul]
    exact wellShapedRes_getD t results hres _ m hm

theorem dirCombine_shape {α : Type} [Field α] (t : QuantumTape α) (D : ℕ)
    (dirs : List (List α)) (est : ℕ → ℕ → Arr α) (m p : ℕ)
    (hest : ∀ d, (est d m).shape = measShapeAt t m) :
    (dirCombine t D dirs est m p).shape = measShapeAt t m := by
  rw [dirCombine, Arr.shape_smul]
  apply arrSum_shape
  intro x hx
  rw [List.mem_map] at hx
  obtain ⟨d, _, rfl⟩ := hx
  rw [Arr.shape_smul]
  exact hest d

theorem rangeMap_eq_map_getD {β γ : Type} (l : List β) (d : β) :
    ∀ (f : ℕ → γ) (g : β → γ), (∀ m < l.length, f m = g (l.getD m d)) →
      (List.range l.length).map f = l.map g := by
  induction l with
  | nil => intro f g _; rfl
  | cons x xs ih =>
      intro f g hfg
      rw [List.length_cons, List.range_succ_eq_map, List.map_cons, List.map_map,
        List.map_cons]
      rw [hfg 0 (by simp)]
      rw [ih (f ∘ Nat.succ) g (fun m hm => hfg (m + 1) (by simpa using hm))]
      rfl

/-- The Jacobian shape described by the spec: a tuple aligned with the
measurements (collapsed for a single measurement) whose entries are tuples
aligned with the differentiated parameters (collapsed to a single array for
a single parameter), each leaf shaped like that measurement's own result
shape. -/
def specJacShape (ms : List Measurement) (nT : ℕ) : Shape :=
  match ms with
  | [m] =>
      if nT = 1 then .leaf m.shape
      else .tup (List.replicate nT (.leaf m.shape))
  | _ =>
      .tup (ms.map (fun m =>
        if nT = 1 then Shape.leaf m.shape
        else .tup (List.replicate nT (.leaf m.shape))))

theorem formatJac_shape {α : Type} [Zero α] (t : QuantumTape α)
    (e : ℕ → ℕ → Arr α)
    (he : ∀ m < t.measurements.length, ∀ p < t.trainable_params.length,
      (e m p).shape = measShapeAt t m) :
    (formatJac t e).shape =
      specJacShape t.measurements t.trainable_params.length := by
  have hper : ∀ m < t.measurements.length,
      (if t.trainable_params.length = 1 then ResTree.arr (e m 0)
        else ResTree.tup ((List.range t.trainable_params.length).map
          (fun p => ResTree.arr (e m p)))).shape =
      (if t.trainable_params.length = 1 then
        Shape.leaf (measShapeAt t m)
        else Shape.tup (List.replicate t.trainable_params.length
          (Shape.leaf (measShapeAt t m)))) := by
    intro m hm
    by_cases hT : t.trainable_params.length = 1
    · simp only [hT, if_true, ResTree.shape]
      rw [he m hm 0 (by omega)]
    · simp only [hT, if_false, ResTree.shape_tup, List.map_map]
      congr 1
      rw [List.eq_replicate_iff]
      refine ⟨by simp, ?_⟩
      intro x hx
      rw [List.mem_map] at hx
      obtain ⟨p, hp, rfl⟩ := hx
      rw [List.mem_range] at hp
      simp only [Function.comp_apply, ResTree.shape]
      rw [he m hm p hp]
  have hleaf : ∀ m < t.measurements.length,
      measShapeAt t m = (t.measurements.getD m ⟨.expval, []⟩).shape :=
    fun m _ => rfl
  cases hms : t.measurements with
  | nil =>
      rw [formatJac]
      simp only [hms, List.length_nil]
      rw [if_neg (by omega)]
      rw [show List.range 0 = [] from rfl, List.map_nil, ResTree.shape_tup]
      rfl
  | cons m0 rest =>
      cases hrest : rest with
      | nil =>
          have hL : t.measurements.length = 1 := by rw [hms, hrest]; rfl
          have hm0 : measShapeAt t 0 = m0.shape := by
            rw [measShapeAt, hms, hrest]
            rfl
          subst hrest
          rw [formatJac]
          simp only [hL, if_true]
          rw [hper 0 (by omega), hm0]
          rfl
      | cons m1 rest2 =>
          subst hrest
          have hlen : t.measurements.length ≠ 1 := by rw [hms]; simp
          rw [formatJac]
          simp only [hlen, if_false, ResTree.shape_tup, List.map_map]
          have hspec : specJacShape (m0 :: m1 :: rest2)
              t.trainable_params.length =
              .tup ((m0 :: m1 :: rest2).map (fun m =>
                if t.trainable_params.length = 1 then Shape.leaf m.shape
                else .tup (List.replicate t.trainable_params.length
                  (.leaf m.shape)))) := rfl
          rw [hspec]
          congr 1
          rw [show t.measurements.length = (m0 :: m1 :: rest2).length from by
            rw [hms]]
          apply rangeMap_eq_map_getD (m0 :: m1 :: rest2) ⟨.expval, []⟩
          intro m hm
          have hm' : m < t.measurements.length := by rw [hms]; exact hm
          have := hper m hm'
          simp only [Function.comp_apply]
          rw [this]
          rw [show measShapeAt t m =
            ((m0 :: m1 :: rest2).getD m ⟨.expval, []⟩).shape from by
              rw [measShapeAt, hms]]

/-- C1: for every tape with at least one trainable parameter, every
supported stencil/strategy/approx_order combination, every sampler and
direction count, and every well-shaped batch of raw device results, the
Jacobian returned by the post-processing function is a tuple aligned with
the measurements (collapsed for a single measurement) whose entries are
tuples aligned with the differentiated parameters (collapsed to a single
array for a single parameter), each leaf shaped exactly like that
measurement's own result shape — including ragged measurement tuples. -/
theorem spsa_jacobian_shape {α : Type} [Field α] (t : QuantumTape α)
    (argnum : Option (List ℕ)) (h : α) (approx_order : ℕ) (strategy : Strategy)
    (f0 : Option (List (Arr α))) (num_directions : Option ℕ) (sampler : Sampler α)
    (seed : Option ℕ) (validate_params : Bool) (results : List (List (Arr α)))
    (htr : t.trainable_params ≠ [])
    (hok : spsaOk (spsa_grad t argnum h approx_order strategy f0 num_directions
        sampler seed validate_params) = true)
    (hres : ∀ r ∈ results, WellShapedRes t r)
    (hf0 : ∀ r, f0 = some r → WellShapedRes t r) :
    (spsaApply (spsa_grad t argnum h approx_order strategy f0 num_directions
        sampler seed validate_params) results).shape =
      specJacShape t.measurements t.trainable_params.length := by
  rcases spsa_grad_cases t argnum h approx_order strategy f0 num_directions
      sampler seed validate_params with
    ⟨htr2, _⟩ | ⟨e, hrun⟩ | ⟨_, hrun⟩ | ⟨pts, _, _, hrun⟩
  · exact absurd htr2 htr
  · rw [hrun] at hok
    simp [spsaOk] at hok
  · rw [hrun, spsaApply, allZeroOut]
    apply formatJac_shape
    intro m hm p _
    exact Arr.shape_zeroA _
  · rw [hrun, spsaApply, mainOut]
    simp only [spsaPostFn]
    apply formatJac_shape
    intro m hm p _
    by_cases hc : (chosenPositions t argnum).contains p
    · simp only [hc, if_true]
      apply dirCombine_shape
      intro d
      apply estOf_shape
      · by_cases hnr : ((splitStencil pts).1.isSome && f0.isNone) = true
        · simp only [hnr, if_true]
          exact wellShapedRes_getD t results hres 0
        · simp only [hnr, if_false]
          cases hf : f0 with
          | none => simpa [hf] using wellShapedRes_nil t
          | some r => simpa [hf] using hf0 r hf
      · exact hres
      · exact hm
    · simp only [hc, if_false]
      exact Arr.shape_zeroA _

/-- C1 witness: the ragged tape `probs(wire 0), probs(wires 1,2)` with three
trainable parameters, centered order-2 stencil, two directions and
well-shaped results: the Jacobian shape is the measurement-aligned tuple of
parameter-aligned tuples of leaves of shapes `(2,)` and `(4,)`. -/
theorem spsa_jacobian_shape_witness :
    (spsaApply (spsa_grad (α := ℚ)
        { ops := [⟨"RX", [1], [0]⟩, ⟨"RY", [1], [1]⟩, ⟨"RZ", [1], [2]⟩,
                  ⟨"CNOT", [], [0, 1]⟩],
          measurements := [⟨.probs, [0]⟩, ⟨.probs, [1, 2]⟩],
          trainable_params := [0, 1, 2] }
        none 1 2 .center none (some 2) coordinate_sampler none true)
        (List.replicate 4 [Arr.vec [1, 0], Arr.vec [1, 0, 0, 0]])).shape =
      specJacShape [⟨.probs, [0]⟩, ⟨.probs, [1, 2]⟩] 3 := by
  have := spsa_jacobian_shape (α := ℚ)
    { ops := [⟨"RX", [1], [0]⟩, ⟨"RY", [1], [1]⟩, ⟨"RZ", [1], [2]⟩,
              ⟨"CNOT", [], [0, 1]⟩],
      measurements := [⟨.probs, [0]⟩, ⟨.probs, [1, 2]⟩],
      trainable_params := [0, 1, 2] }
    none 1 2 .center none (some 2) coordinate_sampler none true
    (List.replicate 4 [Arr.vec [1, 0], Arr.vec [1, 0, 0, 0]])
    (by decide) (by decide)
    (by
      intro r hr
      rw [List.eq_of_mem_replicate hr]
      intro m hm
      have hm2 : m < 2 := hm
      interval_cases m <;> rfl)
    (by intro r hcontra; cases hcontra)
  exact this

/-! ## Claim C2: support lemmas for coordinate-sampler exactness -/

theorem getD_map_of_lt {β γ : Type} (l : List β) (f : β → γ) (i : ℕ) (d : γ)
    (x : β) (h : i < l.length) :
    (l.map f).getD i d = f (l.getD i x) := by
  rw [List.getD_eq_getElem _ _ (by simpa using h), List.getElem_map,
    List.getD_eq_getElem _ _ h]

theorem flatten_getD_const {β : Type} (ls : List (List β)) (S : ℕ)
    (hS : ∀ l ∈ ls, l.length = S) (d j : ℕ) (junk : β)
    (hd : d < ls.length) (hj : j < S) :
    ls.flatten.getD (d * S + j) junk = (ls.getD d []).getD j junk := by
  induction ls generalizing d with
  | nil => simp at hd
  | cons l rest ih =>
      have hl : l.length = S := hS l (by simp)
      cases d with
      | zero =>
          simp only [List.flatten_cons, Nat.zero_mul, Nat.zero_add]
          have hjl : j < l.length := by omega
          rw [List.getD_eq_getElem _ _ (by simp; omega)]
          rw [List.getElem_append_left (by omega)]
          have hgd : ((l :: rest).getD 0 []) = l := rfl
          rw [hgd, List.getD_eq_getElem _ _ hjl]
      | succ d =>
          simp only [List.flatten_cons]
          have hidx : (d + 1) * S + j = l.length + (d * S + j) := by
            rw [hl]
            ring
          rw [hidx]
          have hrest : ∀ l' ∈ rest, l'.length = S :=
            fun l' hl' => hS l' (by simp [hl'])
          have hd' : d < rest.length := by simpa using hd
          calc (l ++ rest.flatten).getD (l.length + (d * S + j)) junk
              = rest.flatten.getD (d * S + j) junk := by
                rw [List.getD_eq_getElem?_getD, List.getElem?_append_right
                  (by omega)]
                simp [List.getD_eq_getElem?_getD]
            _ = (rest.getD d []).getD j junk := ih hrest d hd'
            _ = ((l :: rest).getD (d + 1) []).getD j junk := rfl

theorem foldr_add_of_isZero {α : Type} [AddMonoid α] (s : ArrShape)
    (l : List (Arr α)) (acc : Arr α)
    (hl : ∀ x ∈ l, x.IsZero ∧ x.shape = s) (hacc : acc.shape = s) :
    l.foldr Arr.add acc = acc := by
  induction l with
  | nil => rfl
  | cons x xs ih =>
      have hx := hl x (by simp)
      have hxs := ih (fun y hy => hl y (by simp [hy]))
      rw [List.foldr_cons, hxs]
      exact Arr.add_of_isZero_left x acc hx.1 (by rw [hx.2, hacc])

theorem arrSum_single {α : Type} [Field α] (s : ArrShape) (n p : ℕ)
    (hp : p < n) (a : ℕ → Arr α) (hsh : ∀ d < n, (a d).shape = s) :
    arrSum s ((List.range n).map (fun d =>
      Arr.smul (if p = d then (1 : α) else 0) (a d))) = a p := by
  induction n with
  | zero => omega
  | succ n ih =>
      rw [List.range_succ, List.map_append, arrSum, List.foldr_append]
      by_cases hpn : p = n
      · have hinner : List.foldr Arr.add (Arr.zeroA s)
            ([n].map (fun d => Arr.smul (if p = d then (1 : α) else 0) (a d))) =
            a n := by
          simp only [List.map_cons, List.map_nil, List.foldr_cons,
            List.foldr_nil, if_pos hpn]
          rw [Arr.smul_one]
          have : Arr.zeroA (α := α) s = Arr.zeroA (a n).shape := by
            rw [hsh n (by omega)]
          rw [this]
          exact Arr.add_zeroA (a n)
        rw [hinner, hpn]
        apply foldr_add_of_isZero s _ _ ?_ (hsh n (by omega))
        intro x hx
        rw [List.mem_map] at hx
        obtain ⟨d, hd, rfl⟩ := hx
        rw [List.mem_range] at hd
        rw [if_neg (by omega)]
        exact ⟨Arr.isZero_smul_zero _, by rw [Arr.shape_smul]; exact hsh d (by omega)⟩
      · have hpn' : p < n := by omega
        have hinner : List.foldr Arr.add (Arr.zeroA s)
            ([n].map (fun d => Arr.smul (if p = d then (1 : α) else 0) (a d))) =
            Arr.zeroA s := by
          simp only [List.map_cons, List.map_nil, List.foldr_cons,
            List.foldr_nil, if_neg hpn]
          apply Arr.add_of_isZero_left
          · exact Arr.isZero_smul_zero _
          · rw [Arr.shape_smul, Arr.shape_zeroA]
            exact hsh n (by omega)
        rw [hinner]
        exact ih hpn' (fun d hd => hsh d (by omega))

theorem map_range_zero_eq_replicate {α : Type} [Zero α] (n : ℕ) :
    (List.range n).map (fun _ => (0 : α)) = List.replicate n 0 := by
  rw [List.eq_replicate_iff]
  constructor
  · simp
  · intro b hb
    rw [List.mem_map] at hb
    obtain ⟨_, _, rfl⟩ := hb
    rfl

theorem withParams_self {α : Type} (t : QuantumTape α) :
    t.withParams (tapeParams t) = t := by
  have : ∀ ops : List (Operation α),
      reassignParams ops ((ops.map (fun o => o.params)).flatten) = ops := by
    intro ops
    induction ops with
    | nil => rfl
    | cons op rest ihops =>
        simp only [List.map_cons, List.flatten_cons, reassignParams]
        rw [List.take_left' rfl, List.drop_left' rfl, ihops]
  rw [QuantumTape.withParams, tapeParams, this]

theorem shiftVector_zero {α : Type} [MulZeroClass α] (t : QuantumTape α)
    (chosen : List ℕ) (dir : List α) :
    shiftVector t chosen (0 : α) dir = List.replicate (numParams t) 0 := by
  rw [shiftVector]
  rw [show (fun i => match t.trainable_params.findIdx? (fun j => j == i) with
      | some k => if chosen.contains k = true then (0 : α) * dir.getD k 0 else 0
      | none => 0) = (fun _ : ℕ => (0 : α)) from ?_]
  · exact map_range_zero_eq_replicate _
  · funext i
    cases t.trainable_params.findIdx? (fun j => j == i) with
    | none => rfl
    | some k =>
        by_cases hc : chosen.contains k = true <;> simp [hc]

theorem shiftedTape_zero {α : Type} [Field α] (t : QuantumTape α)
    (chosen : List ℕ) (dir : List α) :
    shiftedTape t chosen (0 : α) dir = t := by
  rw [shiftedTape, shiftVector_zero]
  rw [show List.replicate (numParams t) (0 : α) =
    List.replicate (tapeParams t).length 0 from rfl]
  rw [zipWith_add_replicate_zero, withParams_self]

theorem offendingParams_none {α : Type} (t : QuantumTape α) :
    offendingParams t none = [] := by
  rw [offendingParams, List.filter_eq_nil_iff]
  intro a ha
  rw [argnumFlat] at ha
  simp only [Option.getD_none] at ha
  simp [List.elem_iff]
  exact ha

/-- The canonical basis direction vector over `n` trainable parameters. -/
def basisDir {α : Type} [Zero α] [One α] (n p : ℕ) : List α :=
  (List.replicate n (0 : α)).set p 1

theorem coordinate_sampler_eq_basisDir {α : Type} [Zero α] [One α]
    (nT d : ℕ) (hd : d < nT) (seed : Option ℕ) :
    coordinate_sampler (α := α) (List.range nT) nT d seed = basisDir nT d := by
  rw [coordinate_sampler, basisDir]
  have h1 : (List.range nT).length = nT := List.length_range nT
  have h2 : d % (List.range nT).length = d := by
    rw [h1]
    exact Nat.mod_eq_of_lt hd
  rw [h2]
  have h3 : (List.range nT).getD d 0 = d := by
    rw [List.getD_eq_getElem _ _ (by simpa using hd), List.getElem_range]
  rw [h3]

theorem basisDir_getD {α : Type} [Zero α] [One α] (n p q : ℕ)
    (hq : q < n) :
    (basisDir (α := α) n p).getD q 0 = if q = p then 1 else 0 := by
  by_cases hqp : q = p
  · subst hqp
    rw [if_pos rfl, basisDir, getD_set_of_lt _ _ _ _ (by simpa using hq)]
  · rw [if_neg hqp, basisDir, getD_set_of_ne _ _ _ _ _ hqp,
      getD_replicate_of_lt _ _ _ _ hq]

/-- The exact finite-difference Jacobian leaf for trainable-parameter
position `p` and measurement `m`: the stencil-coefficient-weighted
combination of the device's results on the tapes shifted along the canonical
basis direction of `p`, divided by the step size.  This is the reference
definition of the first-order finite-difference Jacobian from the spec. -/
def fdJacobianLeaf {α : Type} [Field α] (t : QuantumTape α)
    (dev : QuantumTape α → List (Arr α)) (h : α) (pts : List (ℚ × ℚ))
    (p m : ℕ) : Arr α :=
  Arr.smul h⁻¹ (arrSum (measShapeAt t m)
    (pts.map (fun mc => Arr.smul ((mc.2 : α))
      (getMeasRes t (dev (shiftedTape t (List.range t.trainable_params.length)
        ((mc.1 : α) * h)
        (basisDir t.trainable_params.length p))) m))))

theorem mainTapes_flatten_getD {α : Type} [Field α] (t : QuantumTape α)
    (chosen : List ℕ) (h : α) (shifted : List (ℚ × ℚ)) (dirs : List (List α))
    (p j : ℕ) (junk : QuantumTape α) (hp : p < dirs.length)
    (hj : j < shifted.length) :
    ((dirs.map (fun dir => shifted.map
        (fun mc => shiftedTape t chosen ((mc.1 : α) * h) dir))).flatten).getD
      (p * shifted.length + j) junk =
    shiftedTape t chosen (((shifted.getD j (0, 0)).1 : α) * h)
      (dirs.getD p []) := by
  rw [flatten_getD_const _ shifted.length ?_ p j junk (by simpa using hp) hj]
  · rw [getD_map_of_lt dirs _ p [] [] hp, getD_map_of_lt shifted _ j junk (0, 0) hj]
  · intro l hl
    rw [List.mem_map] at hl
    obtain ⟨dir, _, rfl⟩ := hl
    simp

theorem wellShaped_of_map_dev {α : Type} [Zero α] (t : QuantumTape α)
    (dev : QuantumTape α → List (Arr α)) (hdev : ∀ tp, WellShapedRes t (dev tp))
    (tps : List (QuantumTape α)) :
    ∀ r ∈ tps.map dev, WellShapedRes t r := by
  intro r hr
  rw [List.mem_map] at hr
  obtain ⟨tp, _, rfl⟩ := hr
  exact hdev tp

/-- With the coordinate sampler, `num_directions` equal to the number of
trainable parameters, all of them influential, and multiplication of the
returned leaf by `num_directions` to undo the `1/num_directions`
normalization, the transform's post-processed output at measurement `m` and
parameter position `p` equals the exact finite-difference Jacobian leaf of
the stencil along the `p`-th canonical basis direction. -/
theorem spsa_coordinate_renorm_eq_fd {α : Type} [Field α] (t : QuantumTape α)
    (h : α) (approx_order : ℕ) (strategy : Strategy) (seed : Option ℕ)
    (dev : QuantumTape α → List (Arr α)) (pts : List (ℚ × ℚ)) (m p : ℕ)
    (htr : t.trainable_params ≠ [])
    (hch : chosenPositions t none = List.range t.trainable_params.length)
    (hst : fdStencilE strategy approx_order = .ok pts)
    (hdev : ∀ tp, WellShapedRes t (dev tp))
    (hnT : ((t.trainable_params.length : ℕ) : α) ≠ 0)
    (hm : m < t.measurements.length) (hp : p < t.trainable_params.length) :
    Arr.smul ((t.trainable_params.length : ℕ) : α)
      (jacLeaf t (spsaApply (spsa_grad t none h approx_order strategy none
          (some t.trainable_params.length) coordinate_sampler seed true)
        ((spsaTapes (spsa_grad t none h approx_order strategy none
          (some t.trainable_params.length) coordinate_sampler seed true)).map
          dev)) m p) =
    fdJacobianLeaf t dev h pts p m := by
  have hchne : chosenPositions t none ≠ [] := by
    rw [hch]
    intro hcontra
    have := congrArg List.length hcontra
    simp at this
    exact htr this
  have hrun := spsa_grad_of_main t none h approx_order strategy none
    (some t.trainable_params.length) coordinate_sampler seed true pts htr
    (fun _ => offendingParams_none t) hst hchne
  rw [hrun]
  set nT := t.trainable_params.length with hnTdef
  rw [spsaApply, spsaTapes]
  rw [show mainOut t h pts none (some nT) coordinate_sampler seed
      (chosenPositions t none) = mainOut t h pts none (some nT)
      coordinate_sampler seed (List.range nT) from by rw [hch]]
  rw [mainOut]
  simp only [Option.getD_some, Option.isNone_none, Bool.and_true]
  rw [spsaPostFn]
  simp only [Option.isNone_none, Bool.and_true, Option.getD_none]
  set dirs := (List.range nT).map
    (fun i => coordinate_sampler (α := α) (List.range nT) nT i seed) with hdirs
  set shifted := (splitStencil pts).2 with hshifted
  set zc := (splitStencil pts).1 with hzc
  set tapes := ((if zc.isSome = true then [t] else []) ++
    (dirs.map (fun dir => shifted.map
      (fun mc => shiftedTape t (List.range nT) ((mc.1 : α) * h) dir))).flatten)
    with htapes
  set results := tapes.map dev with hresults
  have hWSres : ∀ r ∈ results, WellShapedRes t r :=
    wellShaped_of_map_dev t dev hdev tapes
  set r0 := (if zc.isSome = true then results.getD 0 [] else
    ([] : List (Arr α))) with hr0
  have hWSr0 : WellShapedRes t r0 := by
    rw [hr0]
    by_cases hz : zc.isSome = true
    · simp only [hz, if_true]
      exact wellShapedRes_getD t results hWSres 0
    · simp only [hz, if_false]
      exact wellShapedRes_nil t
  set off := (if zc.isSome = true then 1 else 0) with hoff
  rw [jacLeaf_formatJac t _ m p hm hp]
  have hcontains : (List.range nT).contains p = true := by
    simp [List.elem_iff]
    exact hp
  rw [if_pos hcontains]
  rw [dirCombine]
  have hdirval : ∀ d < nT, (dirs.getD d []).getD p 0 =
      (if p = d then (1 : α) else 0) := by
    intro d hd
    rw [hdirs, getD_map_range _ _ _ _ hd,
      coordinate_sampler_eq_basisDir nT d hd seed, basisDir_getD nT d p hp]
  have hestShape : ∀ d,
      (estOf t h shifted zc r0 results off shifted.length d m).shape =
        measShapeAt t m := by
    intro d
    exact estOf_shape t h shifted zc r0 results off shifted.length d m hWSr0
      hWSres hm
  have hmapeq : (List.range nT).map (fun d =>
      Arr.smul ((dirs.getD d []).getD p 0)
        (estOf t h shifted zc r0 results off shifted.length d m)) =
      (List.range nT).map (fun d =>
        Arr.smul (if p = d then (1 : α) else 0)
          (estOf t h shifted zc r0 results off shifted.length d m)) := by
    apply List.map_congr_left
    intro d hd
    rw [List.mem_range] at hd
    rw [hdirval d hd]
  rw [hmapeq, arrSum_single (measShapeAt t m) nT p hp _ (fun d _ => hestShape d),
    Arr.smul_smul, mul_inv_cancel₀ hnT, Arr.smul_one]
  rw [estOf.eq_def, fdJacobianLeaf]
  have hdirp : dirs.getD p [] = basisDir nT p := by
    rw [hdirs, getD_map_range _ _ _ _ hp,
      coordinate_sampler_eq_basisDir nT p hp seed]
  have htlen : tapes.length = off + nT * shifted.length := by
    rw [htapes, List.length_append, List.length_flatten, List.map_map]
    have hconst : (List.length ∘ fun dir => shifted.map
        (fun mc => shiftedTape t (List.range nT) ((mc.1 : α) * h) dir)) =
        (fun _ : List α => shifted.length) := by
      funext dir
      simp
    rw [hconst]
    have : (dirs.map (fun _ => shifted.length)).sum =
        dirs.length * shifted.length := list_sum_map_const dirs shifted.length
    rw [this, hdirs, List.length_map, List.length_range, hoff]
    by_cases hz : zc.isSome = true <;> simp [hz]
  have hidx : ∀ j < shifted.length,
      results.getD (off + p * shifted.length + j) [] =
        dev (shiftedTape t (List.range nT)
          (((shifted.getD j (0, 0)).1 : α) * h) (basisDir nT p)) := by
    intro j hj
    have hlt : off + p * shifted.length + j < tapes.length := by
      rw [htlen]
      have : p * shifted.length + j < nT * shifted.length := by
        calc p * shifted.length + j < p * shifted.length + shifted.length := by
              omega
          _ = (p + 1) * shifted.length := by ring
          _ ≤ nT * shifted.length := Nat.mul_le_mul_right _ (by omega)
      omega
    rw [hresults, getD_map_of_lt tapes dev _ [] t hlt]
    congr 1
    have htp : tapes.getD (off + p * shifted.length + j) t =
        ((dirs.map (fun dir => shifted.map
          (fun mc => shiftedTape t (List.range nT) ((mc.1 : α) * h)
            dir))).flatten).getD (p * shifted.length + j) t := by
      by_cases hz : zc.isSome = true
      · have hoff1 : off = 1 := by rw [hoff, if_pos hz]
        have htap : tapes = t :: (dirs.map (fun dir => shifted.map
            (fun mc => shiftedTape t (List.range nT) ((mc.1 : α) * h)
              dir))).flatten := by
          rw [htapes, if_pos hz]
          rfl
        rw [htap, hoff1, show 1 + p * shifted.length + j =
          (p * shifted.length + j) + 1 from by omega]
        rfl
      · have hoff0 : off = 0 := by rw [hoff, if_neg hz]
        have htap : tapes = (dirs.map (fun dir => shifted.map
            (fun mc => shiftedTape t (List.range nT) ((mc.1 : α) * h)
              dir))).flatten := by
          rw [htapes, if_neg hz, List.nil_append]
        rw [htap, hoff0, Nat.zero_add]
    rw [htp, mainTapes_flatten_getD t (List.range nT) h shifted dirs p j t
      (by rw [hdirs]; simpa using hp) hj, hdirp]
  cases hpts : pts with
  | nil =>
      have hz : zc = none := by rw [hzc, hpts]; rfl
      have hsh : shifted = [] := by rw [hshifted, hpts]; rfl
      rw [hz, hsh]
      simp
  | cons mc0 rest =>
      have harr : ∀ (x : Arr α) (l : List (Arr α)),
          arrSum (measShapeAt t m) (x :: l) =
            x.add (arrSum (measShapeAt t m) l) :=
        fun x l => rfl
      by_cases hmu : mc0.1 = 0
      · have hz : zc = some mc0.2 := by
          rw [hzc, hpts]
          obtain ⟨μ0, c0⟩ := mc0
          have hmu2 : μ0 = 0 := hmu
          simp [splitStencil, hmu2]
        have hsh : shifted = rest := by
          rw [hshifted, hpts]
          obtain ⟨μ0, c0⟩ := mc0
          have hmu2 : μ0 = 0 := hmu
          simp [splitStencil, hmu2]
        have hr0val : r0 = dev t := by
          rw [hr0, hz]
          simp only [Option.isSome_some, if_true]
          have h0 : tapes.getD 0 t = t := by
            rw [htapes, hz]
            rfl
          rw [hresults, getD_map_of_lt tapes dev 0 [] t
            (by rw [htlen, hoff, hz]; simp), h0]
        have hidx' : ∀ j < rest.length,
            results.getD (off + p * rest.length + j) [] =
              dev (shiftedTape t (List.range nT)
                (((rest.getD j (0, 0)).1 : α) * h) (basisDir nT p)) := by
          rw [← hsh]
          exact hidx
        rw [hz, hsh]
        simp only [List.map_cons]
        rw [List.singleton_append, harr, harr]
        have hg0 : Arr.smul ((mc0.2 : α))
            (getMeasRes t (dev (shiftedTape t
              (List.range t.trainable_params.length)
              ((mc0.1 : α) * h)
              (basisDir t.trainable_params.length p))) m) =
            Arr.smul ((mc0.2 : α)) (getMeasRes t (dev t) m) := by
          rw [hmu]
          norm_num [shiftedTape_zero]
        rw [hg0, hr0val]
        congr 2
        congr 1
        apply rangeMap_eq_map_getD rest (0, 0)
        intro j hj
        rw [hidx' j hj]
      · have hz : zc = none := by
          rw [hzc, hpts]
          obtain ⟨μ0, c0⟩ := mc0
          have hmu2 : ¬(μ0 = 0) := hmu
          simp [splitStencil, hmu2]
        have hsh : shifted = mc0 :: rest := by
          rw [hshifted, hpts]
          obtain ⟨μ0, c0⟩ := mc0
          have hmu2 : ¬(μ0 = 0) := hmu
          simp [splitStencil, hmu2]
        have hidx' : ∀ j < (mc0 :: rest).length,
            results.getD (p * (mc0 :: rest).length + j) [] =
              dev (shiftedTape t (List.range nT)
                ((((mc0 :: rest).getD j (0, 0)).1 : α) * h)
                (basisDir nT p)) := by
          intro j hj
          have := hidx j (by rw [hsh]; exact hj)
          rw [hoff, hz] at this
          simp only [Option.isSome_none, Bool.false_eq_true, if_false,
            Nat.zero_add] at this
          rw [hsh] at this
          exact this
        rw [hz, hsh]
        simp only [Option.isSome_none, Bool.false_eq_true, if_false,
          List.nil_append]
        congr 1
        congr 1
        apply rangeMap_eq_map_getD (mc0 :: rest) (0, 0)
        intro j hj
        have := hidx' j hj
        rw [hoff, hz]
        simp only [Option.isSome_none, Bool.false_eq_true, if_false,
          Nat.zero_add]
        rw [this]

/-! ## The concrete scenario of claim C2

The tape `RX(x, wire 0); RY(y, wire 1); CNOT(0, 1); expval(PauliZ(0) ⊗
PauliX(1))`, simulated on two qubits from the standard gate matrices. -/

/-- State of one qubit after `RX(x)` applied to `|0⟩`. -/
noncomputable def rxKet (x : ℝ) : Fin 2 → ℂ :=
  ![(Real.cos (x / 2) : ℂ), -Complex.I * (Real.sin (x / 2) : ℂ)]

/-- State of one qubit after `RY(y)` applied to `|0⟩`. -/
noncomputable def ryKet (y : ℝ) : Fin 2 → ℂ :=
  ![(Real.cos (y / 2) : ℂ), (Real.sin (y / 2) : ℂ)]

/-- Product state of two qubits (wire 0 is the most significant bit). -/
noncomputable def prodKet (u v : Fin 2 → ℂ) : Fin 4 → ℂ :=
  ![u 0 * v 0, u 0 * v 1, u 1 * v 0, u 1 * v 1]

/-- Action of `CNOT(0, 1)` on a two-qubit state. -/
noncomputable def cnotOn (ψ : Fin 4 → ℂ) : Fin 4 → ℂ :=
  ![ψ 0, ψ 1, ψ 3, ψ 2]

/-- Expectation value `⟨ψ| Z ⊗ X |ψ⟩` on a two-qubit state. -/
noncomputable def zxExpect (ψ : Fin 4 → ℂ) : ℝ :=
  ((starRingEnd ℂ) (ψ 0) * ψ 1 + (starRingEnd ℂ) (ψ 1) * ψ 0 -
    (starRingEnd ℂ) (ψ 2) * ψ 3 - (starRingEnd ℂ) (ψ 3) * ψ 2).re

/-- The scenario tape's expectation value as a function of its parameters. -/
noncomputable def expvalZX (x y : ℝ) : ℝ :=
  zxExpect (cnotOn (prodKet (rxKet x) (ryKet y)))

theorem expvalZX_eq (x y : ℝ) :
    expvalZX x y = Real.cos x * Real.sin y := by
  have hcos : Real.cos (x / 2) ^ 2 - Real.sin (x / 2) ^ 2 = Real.cos x := by
    have h1 := Real.cos_two_mul' (x / 2)
    rw [show 2 * (x / 2) = x from by ring] at h1
    linarith
  have hsin : 2 * Real.sin (y / 2) * Real.cos (y / 2) = Real.sin y := by
    have := Real.sin_two_mul (y / 2)
    rw [show 2 * (y / 2) = y from by ring] at this
    linarith
  rw [expvalZX, zxExpect, cnotOn, prodKet, rxKet, ryKet]
  simp only [Matrix.cons_val_zero, Matrix.cons_val_one, Matrix.head_cons,
    Matrix.cons_val_two, Matrix.tail_cons, Matrix.cons_val_three,
    Matrix.cons_val_fin_one, map_mul, map_neg, Complex.conj_I,
    Complex.conj_ofReal]
  set cx := Real.cos (x / 2)
  set sx := Real.sin (x / 2)
  set cy := Real.cos (y / 2)
  set sy := Real.sin (y / 2)
  simp only [Complex.sub_re, Complex.add_re, Complex.mul_re, Complex.mul_im,
    Complex.ofReal_re, Complex.ofReal_im, Complex.I_re, Complex.I_im,
    Complex.neg_re, Complex.neg_im]
  ring_nf
  linear_combination (2 * cy * sy) * hcos + Real.cos x * hsin

/-- The scenario tape of the claim:
`RX(x, 0); RY(y, 1); CNOT(0, 1); expval(Z(0) ⊗ X(1))`, both parameters
trainable. -/
def scenarioTape (x y : ℝ) : QuantumTape ℝ :=
  { ops := [⟨"RX", [x], [0]⟩, ⟨"RY", [y], [1]⟩, ⟨"CNOT", [], [0, 1]⟩],
    measurements := [⟨.expval, [0, 1]⟩],
    trainable_params := [0, 1] }

/-- The device executing a variant of the scenario tape: it reads the two
flat parameters and returns the simulated expectation value of
`Z(0) ⊗ X(1)`. -/
noncomputable def scenarioDev (tp : QuantumTape ℝ) : List (Arr ℝ) :=
  [Arr.scal (expvalZX ((tapeParams tp).getD 0 0) ((tapeParams tp).getD 1 0))]

theorem fdStencil_center_two : fdStencil .center 2 = [(1, 1/2), (-1, -1/2)] := by
  norm_num [fdStencil, stencilMults, derivCoeffAt, List.range_succ]

/-- The symmetric difference quotient of a differentiable function tends to
its derivative (the centered stencil's truncation error vanishes with the
step size). -/
theorem centered_diff_tendsto (f : ℝ → ℝ) (x f' : ℝ) (hf : HasDerivAt f f' x) :
    Filter.Tendsto (fun h : ℝ => (f (x + h) - f (x - h)) / (2 * h))
      (nhdsWithin 0 {(0 : ℝ)}ᶜ) (nhds f') := by
  have hslope := hasDerivAt_iff_tendsto_slope.mp hf
  have hadd : Filter.Tendsto (fun h : ℝ => x + h)
      (nhdsWithin 0 {(0 : ℝ)}ᶜ) (nhdsWithin x {x}ᶜ) := by
    apply tendsto_nhdsWithin_of_tendsto_nhds_of_eventually_within
    · have h1 : Filter.Tendsto (fun h : ℝ => x + h) (nhds 0) (nhds x) := by
        simpa using (continuous_const.add continuous_id).tendsto (0 : ℝ)
      exact h1.mono_left nhdsWithin_le_nhds
    · filter_upwards [self_mem_nhdsWithin] with h hh
      simp only [Set.mem_compl_iff, Set.mem_singleton_iff] at hh ⊢
      intro hcontra
      exact hh (by linarith)
  have hneg : Filter.Tendsto (fun h : ℝ => -h)
      (nhdsWithin 0 {(0 : ℝ)}ᶜ) (nhdsWithin 0 {(0 : ℝ)}ᶜ) := by
    apply tendsto_nhdsWithin_of_tendsto_nhds_of_eventually_within
    · have h1 : Filter.Tendsto (fun h : ℝ => -h) (nhds (0 : ℝ)) (nhds 0) := by
        simpa using (continuous_neg (G := ℝ)).tendsto (0 : ℝ)
      exact h1.mono_left nhdsWithin_le_nhds
    · filter_upwards [self_mem_nhdsWithin] with h hh
      simp only [Set.mem_compl_iff, Set.mem_singleton_iff] at hh ⊢
      intro hcontra
      exact hh (by linarith)
  have hT1 : Filter.Tendsto (fun h : ℝ => (f (x + h) - f x) / h)
      (nhdsWithin 0 {(0 : ℝ)}ᶜ) (nhds f') := by
    have := hslope.comp hadd
    apply this.congr'
    filter_upwards [self_mem_nhdsWithin] with h hh
    simp only [Function.comp_apply, slope_def_field]
    rw [show x + h - x = h from by ring]
  have hT2 : Filter.Tendsto (fun h : ℝ => (f x - f (x - h)) / h)
      (nhdsWithin 0 {(0 : ℝ)}ᶜ) (nhds f') := by
    have := hT1.comp hneg
    apply this.congr'
    filter_upwards [self_mem_nhdsWithin] with h hh
    simp only [Function.comp_apply]
    rw [show x + -h = x - h from by ring, div_neg, ← neg_div, neg_sub]
  have hsum := (hT1.add hT2).div_const 2
  rw [show (f' + f') / 2 = f' from by ring] at hsum
  apply hsum.congr'
  filter_upwards [self_mem_nhdsWithin] with h hh
  rw [div_add_div_same, div_div]
  rw [show f (x + h) - f x + (f x - f (x - h)) = f (x + h) - f (x - h) from by
    ring]
  rw [show h * 2 = 2 * h from by ring]

theorem scenario_fd_leaf_x (x y h : ℝ) :
    fdJacobianLeaf (scenarioTape x y) scenarioDev h [(1, 1/2), (-1, -1/2)]
      0 0 =
      Arr.scal ((expvalZX (x + h) y - expvalZX (x - h) y) / (2 * h)) := by
  have hs0 : scenarioDev (shiftedTape (scenarioTape x y) (List.range 2)
      (((1 : ℚ) : ℝ) * h) (basisDir 2 0)) =
      [Arr.scal (expvalZX (x + ((1 : ℚ) : ℝ) * h * 1)
        (y + ((1 : ℚ) : ℝ) * h * 0))] := rfl
  have hs1 : scenarioDev (shiftedTape (scenarioTape x y) (List.range 2)
      (((-1 : ℚ) : ℝ) * h) (basisDir 2 0)) =
      [Arr.scal (expvalZX (x + ((-1 : ℚ) : ℝ) * h * 1)
        (y + ((-1 : ℚ) : ℝ) * h * 0))] := rfl
  have hget : ∀ E : ℝ, getMeasRes (scenarioTape x y) [Arr.scal E] 0 =
      Arr.scal E := fun _ => rfl
  simp only [fdJacobianLeaf, List.map_cons, List.map_nil,
    show (scenarioTape x y).trainable_params.length = 2 from rfl]
  rw [hs0, hs1, hget, hget]
  simp only [arrSum, List.foldr_cons, List.foldr_nil,
    show measShapeAt (scenarioTape x y) 0 = ArrShape.scal from rfl,
    Arr.zeroA, Arr.smul, Arr.add, Arr.scal.injEq]
  push_cast
  rw [mul_one, mul_zero, add_zero, mul_one, mul_zero, add_zero]
  ring_nf

theorem scenario_fd_leaf_y (x y h : ℝ) :
    fdJacobianLeaf (scenarioTape x y) scenarioDev h [(1, 1/2), (-1, -1/2)]
      1 0 =
      Arr.scal ((expvalZX x (y + h) - expvalZX x (y - h)) / (2 * h)) := by
  have hs0 : scenarioDev (shiftedTape (scenarioTape x y) (List.range 2)
      (((1 : ℚ) : ℝ) * h) (basisDir 2 1)) =
      [Arr.scal (expvalZX (x + ((1 : ℚ) : ℝ) * h * 0)
        (y + ((1 : ℚ) : ℝ) * h * 1))] := rfl
  have hs1 : scenarioDev (shiftedTape (scenarioTape x y) (List.range 2)
      (((-1 : ℚ) : ℝ) * h) (basisDir 2 1)) =
      [Arr.scal (expvalZX (x + ((-1 : ℚ) : ℝ) * h * 0)
        (y + ((-1 : ℚ) : ℝ) * h * 1))] := rfl
  have hget : ∀ E : ℝ, getMeasRes (scenarioTape x y) [Arr.scal E] 0 =
      Arr.scal E := fun _ => rfl
  simp only [fdJacobianLeaf, List.map_cons, List.map_nil,
    show (scenarioTape x y).trainable_params.length = 2 from rfl]
  rw [hs0, hs1, hget, hget]
  simp only [arrSum, List.foldr_cons, List.foldr_nil,
    show measShapeAt (scenarioTape x y) 0 = ArrShape.scal from rfl,
    Arr.zeroA, Arr.smul, Arr.add, Arr.scal.injEq]
  push_cast
  rw [mul_one, mul_zero, add_zero, mul_one, mul_zero, add_zero]
  ring_nf

theorem scenarioDev_wellShaped (x y : ℝ) (tp : QuantumTape ℝ) :
    WellShapedRes (scenarioTape x y) (scenarioDev tp) := by
  intro m hm
  have hm1 : m < 1 := hm
  interval_cases m
  rfl

/-- C2 counterexample: the claim's Jacobian vector `[-sin(y)·sin(x),
cos(y)·cos(x)]` is not the analytic gradient of `cos(x)·cos(y)`: at
`x = 0.543`, `y = -0.654` the tape's actual derivative in `x` (the first
entry of that vector, since the tape's expectation is `cos(x)·sin(y)`)
differs from `∂/∂x (cos(x)·cos(y))`. -/
theorem spsa_coscos_gradient_cex :
    deriv (fun u => expvalZX u (-(654 / 1000) : ℝ)) (543 / 1000) ≠
      deriv (fun u => Real.cos u * Real.cos (-(654 / 1000) : ℝ))
        (543 / 1000) := by
  have hpi : (3 : ℝ) < Real.pi := Real.pi_gt_three
  have hd1 : deriv (fun u => expvalZX u (-(654 / 1000) : ℝ)) (543 / 1000) =
      -Real.sin (543 / 1000) * Real.sin (-(654 / 1000) : ℝ) := by
    have hfe : (fun u => expvalZX u (-(654 / 1000) : ℝ)) =
        (fun u => Real.cos u * Real.sin (-(654 / 1000) : ℝ)) := by
      funext u
      exact expvalZX_eq u _
    rw [hfe]
    exact ((Real.hasDerivAt_cos _).mul_const _).deriv
  have hd2 : deriv (fun u => Real.cos u * Real.cos (-(654 / 1000) : ℝ))
      (543 / 1000) =
      -Real.sin (543 / 1000) * Real.cos (-(654 / 1000) : ℝ) := by
    exact ((Real.hasDerivAt_cos _).mul_const _).deriv
  rw [hd1, hd2]
  rw [Real.sin_neg, Real.cos_neg]
  have hsx : 0 < Real.sin (543 / 1000) :=
    Real.sin_pos_of_pos_of_lt_pi (by norm_num) (by linarith)
  have hsy : 0 < Real.sin (654 / 1000) :=
    Real.sin_pos_of_pos_of_lt_pi (by norm_num) (by linarith)
  have hcy : 0 < Real.cos (654 / 1000) := by
    apply Real.cos_pos_of_mem_Ioo
    constructor
    · linarith
    · linarith
  intro hcontra
  nlinarith

/-- C2 (amended): with the coordinate sampler and `num_directions` equal to
the number of trainable parameters, multiplying the returned Jacobian leaves
by `num_directions` recovers the exact finite-difference Jacobian of the
stencil (first conjunct, for every tape, step size, strategy and
approximation order over the reals); in particular, for the tape
`RX(x, 0); RY(y, 1); CNOT(0, 1); expval(Z(0) ⊗ X(1))` with
`strategy = "center"`, `approx_order = 2`, `num_directions = 2`, the
×2-renormalized Jacobian equals the exact centered differences of the
tape's expectation value, and as the step size tends to zero these converge
to `(-sin(y)·sin(x), cos(y)·cos(x))` — the analytic gradient of
`cos(x)·sin(y)`, which is the tape's expectation (not of `cos(x)·cos(y)`
as the claim says). -/
theorem spsa_deterministic_reproduction (x y : ℝ) :
    (∀ (t : QuantumTape ℝ) (h : ℝ) (approx_order : ℕ) (strategy : Strategy)
        (seed : Option ℕ) (dev : QuantumTape ℝ → List (Arr ℝ))
        (pts : List (ℚ × ℚ)) (m p : ℕ),
      t.trainable_params ≠ [] →
      chosenPositions t none = List.range t.trainable_params.length →
      fdStencilE strategy approx_order = .ok pts →
      (∀ tp, WellShapedRes t (dev tp)) →
      ((t.trainable_params.length : ℕ) : ℝ) ≠ 0 →
      m < t.measurements.length → p < t.trainable_params.length →
      Arr.smul ((t.trainable_params.length : ℕ) : ℝ)
        (jacLeaf t (spsaApply (spsa_grad t none h approx_order strategy none
            (some t.trainable_params.length) coordinate_sampler seed true)
          ((spsaTapes (spsa_grad t none h approx_order strategy none
            (some t.trainable_params.length) coordinate_sampler seed true)).map
            dev)) m p) =
        fdJacobianLeaf t dev h pts p m) ∧
    (∀ h : ℝ,
      Arr.smul (2 : ℝ)
        (jacLeaf (scenarioTape x y)
          (spsaApply (spsa_grad (scenarioTape x y) none h 2 .center none
              (some 2) coordinate_sampler none true)
            ((spsaTapes (spsa_grad (scenarioTape x y) none h 2 .center none
              (some 2) coordinate_sampler none true)).map scenarioDev)) 0 0) =
        Arr.scal ((expvalZX (x + h) y - expvalZX (x - h) y) / (2 * h)) ∧
      Arr.smul (2 : ℝ)
        (jacLeaf (scenarioTape x y)
          (spsaApply (spsa_grad (scenarioTape x y) none h 2 .center none
              (some 2) coordinate_sampler none true)
            ((spsaTapes (spsa_grad (scenarioTape x y) none h 2 .center none
              (some 2) coordinate_sampler none true)).map scenarioDev)) 0 1) =
        Arr.scal ((expvalZX x (y + h) - expvalZX x (y - h)) / (2 * h))) ∧
    expvalZX x y = Real.cos x * Real.sin y ∧
    Filter.Tendsto (fun h : ℝ =>
        (expvalZX (x + h) y - expvalZX (x - h) y) / (2 * h))
      (nhdsWithin 0 {(0 : ℝ)}ᶜ) (nhds (-Real.sin y * Real.sin x)) ∧
    Filter.Tendsto (fun h : ℝ =>
        (expvalZX x (y + h) - expvalZX x (y - h)) / (2 * h))
      (nhdsWithin 0 {(0 : ℝ)}ᶜ) (nhds (Real.cos y * Real.cos x)) := by
  have hgen : ∀ (t : QuantumTape ℝ) (h : ℝ) (approx_order : ℕ)
      (strategy : Strategy) (seed : Option ℕ)
      (dev : QuantumTape ℝ → List (Arr ℝ)) (pts : List (ℚ × ℚ)) (m p : ℕ),
      t.trainable_params ≠ [] →
      chosenPositions t none = List.range t.trainable_params.length →
      fdStencilE strategy approx_order = .ok pts →
      (∀ tp, WellShapedRes t (dev tp)) →
      ((t.trainable_params.length : ℕ) : ℝ) ≠ 0 →
      m < t.measurements.length → p < t.trainable_params.length →
      Arr.smul ((t.trainable_params.length : ℕ) : ℝ)
        (jacLeaf t (spsaApply (spsa_grad t none h approx_order strategy none
            (some t.trainable_params.length) coordinate_sampler seed true)
          ((spsaTapes (spsa_grad t none h approx_order strategy none
            (some t.trainable_params.length) coordinate_sampler seed true)).map
            dev)) m p) =
        fdJacobianLeaf t dev h pts p m := by
    intro t h approx_order strategy seed dev pts m p h1 h2 h3 h4 h5 h6 h7
    exact spsa_coordinate_renorm_eq_fd t h approx_order strategy seed dev pts
      m p h1 h2 h3 h4 h5 h6 h7
  refine ⟨hgen, ?_, expvalZX_eq x y, ?_, ?_⟩
  · intro h
    have hcast : (((scenarioTape x y).trainable_params.length : ℕ) : ℝ) =
        (2 : ℝ) := by
      norm_num [scenarioTape]
    have hx := hgen (scenarioTape x y) h 2 .center none scenarioDev
      (fdStencil .center 2) 0 0 (by simp [scenarioTape]) rfl
      (by simp [fdStencilE]) (scenarioDev_wellShaped x y)
      (by rw [hcast]; norm_num) (by simp [scenarioTape]) (by simp [scenarioTape])
    have hy := hgen (scenarioTape x y) h 2 .center none scenarioDev
      (fdStencil .center 2) 0 1 (by simp [scenarioTape]) rfl
      (by simp [fdStencilE]) (scenarioDev_wellShaped x y)
      (by rw [hcast]; norm_num) (by simp [scenarioTape]) (by simp [scenarioTape])
    rw [hcast] at hx hy
    rw [fdStencil_center_two] at hx hy
    rw [scenario_fd_leaf_x x y h] at hx
    rw [scenario_fd_leaf_y x y h] at hy
    exact ⟨hx, hy⟩
  · have hder : HasDerivAt (fun u => Real.cos u * Real.sin y)
        (-Real.sin x * Real.sin y) x :=
      (Real.hasDerivAt_cos x).mul_const (Real.sin y)
    have := centered_diff_tendsto _ x _ hder
    rw [show -Real.sin x * Real.sin y = -Real.sin y * Real.sin x from by ring]
      at this
    apply this.congr
    intro h
    rw [expvalZX_eq, expvalZX_eq]
  · have hder : HasDerivAt (fun v => Real.cos x * Real.sin v)
        (Real.cos x * Real.cos y) y :=
      (Real.hasDerivAt_sin y).const_mul (Real.cos x)
    have := centered_diff_tendsto _ y _ hder
    rw [show Real.cos x * Real.cos y = Real.cos y * Real.cos x from by ring]
      at this
    apply this.congr
    intro h
    rw [expvalZX_eq, expvalZX_eq]

/-- C2 witness: the amended theorem at the claim's concrete parameter values
`x = 0.543`, `y = -0.654`. -/
theorem spsa_deterministic_reproduction_witness :
    expvalZX (543 / 1000) (-(654 / 1000)) =
      Real.cos (543 / 1000) * Real.sin (-(654 / 1000)) ∧
    Filter.Tendsto (fun h : ℝ =>
        (expvalZX (543 / 1000 + h) (-(654 / 1000)) -
          expvalZX (543 / 1000 - h) (-(654 / 1000))) / (2 * h))
      (nhdsWithin 0 {(0 : ℝ)}ᶜ)
      (nhds (-Real.sin (-(654 / 1000)) * Real.sin (543 / 1000))) := by
  have := spsa_deterministic_reproduction (543 / 1000) (-(654 / 1000))
  exact ⟨this.2.2.1, this.2.2.2.1⟩

end Spsa
